import Mathlib

/-
Verification development for a chess self-play bot (`bot.py`).

The program consists of a `ChessBot` class (minimax search with alpha-beta
pruning and a transposition table, a material + positional evaluator, a
weighted opening book) and a `SelfPlayTrainer` class (parameter jitter,
self-play matches, promotion of winning challengers).

The rules engine (the `chess` library) is an external collaborator: positions
are opaque, and the program only uses the operations listed in the `Rules`
structure below.  All functions of the program are translated here over that
interface; Python floats are modelled as `ℚ` (every constant in the program
is a small decimal exactly representable), `float('inf')` / `float('-inf')`
are modelled by the three-valued `Score` type, and Python's `random` draws
are passed in as explicit parameters.  Mutation of `self` (the transposition
table, the opening book) is modelled by explicit state passing: each function
takes the mutated structure and returns the updated one.
-/

inductive Color where
  | white
  | black
  deriving DecidableEq

def Color.swap : Color → Color
  | .white => .black
  | .black => .white

inductive PieceType where
  | pawn
  | knight
  | bishop
  | rook
  | queen
  | king
  deriving DecidableEq

structure Piece where
  color : Color
  piece_type : PieceType
  deriving DecidableEq

/-- `self.piece_values` as set by `ChessBot.__init__`. -/
def defaultPieceValues : PieceType → ℚ
  | .pawn => 100
  | .knight => 320
  | .bishop => 330
  | .rook => 500
  | .queen => 900
  | .king => 20000

/-- `self.position_scores[chess.PAWN]` from `ChessBot.__init__`. -/
def pawnTable : List ℚ :=
  [0, 0, 0, 0, 0, 0, 0, 0,
   50, 50, 50, 50, 50, 50, 50, 50,
   10, 10, 20, 30, 30, 20, 10, 10,
   5, 5, 10, 25, 25, 10, 5, 5,
   0, 0, 0, 20, 20, 0, 0, 0,
   5, -5, -10, 0, 0, -10, -5, 5,
   5, 10, 10, -20, -20, 10, 10, 5,
   0, 0, 0, 0, 0, 0, 0, 0]

/-- `self.position_scores[chess.KNIGHT]` from `ChessBot.__init__`. -/
def knightTable : List ℚ :=
  [-50, -40, -30, -30, -30, -30, -40, -50,
   -40, -20, 0, 0, 0, 0, -20, -40,
   -30, 0, 10, 15, 15, 10, 0, -30,
   -30, 5, 15, 20, 20, 15, 5, -30,
   -30, 0, 15, 20, 20, 15, 0, -30,
   -30, 5, 10, 15, 15, 10, 5, -30,
   -40, -20, 0, 5, 5, 0, -20, -40,
   -50, -40, -30, -30, -30, -30, -40, -50]

/-- `self.position_scores[chess.BISHOP]` from `ChessBot.__init__`. -/
def bishopTable : List ℚ :=
  [-20, -10, -10, -10, -10, -10, -10, -20,
   -10, 0, 0, 0, 0, 0, 0, -10,
   -10, 0, 5, 10, 10, 5, 0, -10,
   -10, 5, 5, 10, 10, 5, 5, -10,
   -10, 0, 10, 10, 10, 10, 0, -10,
   -10, 10, 10, 10, 10, 10, 10, -10,
   -10, 5, 0, 0, 0, 0, 5, -10,
   -20, -10, -10, -10, -10, -10, -10, -20]

/-- `self.position_scores[chess.ROOK]` from `ChessBot.__init__`. -/
def rookTable : List ℚ :=
  [0, 0, 0, 5, 5, 0, 0, 0,
   -5, 0, 0, 0, 0, 0, 0, -5,
   -5, 0, 0, 0, 0, 0, 0, -5,
   -5, 0, 0, 0, 0, 0, 0, -5,
   -5, 0, 0, 0, 0, 0, 0, -5,
   -5, 0, 0, 0, 0, 0, 0, -5,
   5, 10, 10, 10, 10, 10, 10, 5,
   0, 0, 0, 0, 0, 0, 0, 0]

/-- `self.position_scores[chess.QUEEN]` from `ChessBot.__init__`. -/
def queenTable : List ℚ :=
  [-20, -10, -10, -5, -5, -10, -10, -20,
   -10, 0, 0, 0, 0, 0, 0, -10,
   -10, 0, 5, 5, 5, 5, 0, -10,
   -5, 0, 5, 5, 5, 5, 0, -5,
   0, 0, 5, 5, 5, 5, 0, -5,
   -10, 5, 5, 5, 5, 5, 0, -10,
   -10, 0, 5, 0, 0, 0, 0, -10,
   -20, -10, -10, -5, -5, -10, -10, -20]

/-- `self.position_scores[chess.KING]` from `ChessBot.__init__`. -/
def kingTable : List ℚ :=
  [-30, -40, -40, -50, -50, -40, -40, -30,
   -30, -40, -40, -50, -50, -40, -40, -30,
   -30, -40, -40, -50, -50, -40, -40, -30,
   -30, -40, -40, -50, -50, -40, -40, -30,
   -20, -30, -30, -40, -40, -30, -30, -20,
   -10, -20, -20, -20, -20, -20, -20, -10,
   20, 20, 0, 0, 0, 0, 20, 20,
   20, 30, 10, 0, 0, 10, 30, 20]

/-- `self.position_scores` as set by `ChessBot.__init__`: the dict holds one
64-entry table for each of the six piece types, and no key is ever added or
removed afterwards, so it is modelled as a total function. -/
def defaultPositionScores : PieceType → List ℚ
  | .pawn => pawnTable
  | .knight => knightTable
  | .bishop => bishopTable
  | .rook => rookTable
  | .queen => queenTable
  | .king => kingTable

/-- Scores in the search.  Python uses floats together with
`float('-inf')` / `float('inf')`; every finite value is modelled as `ℚ`. -/
inductive Score where
  | ninf
  | fin (q : ℚ)
  | pinf
  deriving DecidableEq

/-- `a <= b` on scores, as Python float comparison behaves on these values. -/
def Score.le : Score → Score → Bool
  | .ninf, _ => true
  | .fin _, .ninf => false
  | .fin a, .fin b => decide (a ≤ b)
  | .fin _, .pinf => true
  | .pinf, .pinf => true
  | .pinf, _ => false

/-- `a < b` on scores (strict comparison used by `value > best_value`). -/
def Score.lt (a b : Score) : Bool := !(Score.le b a)

/-- Python's `max` on scores. -/
def Score.max (a b : Score) : Score := if Score.le a b then b else a

/-- Python's `min` on scores. -/
def Score.min (a b : Score) : Score := if Score.le a b then a else b

/-- Unary minus on scores (negation of a float, `-inf ↔ inf`). -/
def Score.neg : Score → Score
  | .ninf => .pinf
  | .fin q => .fin (-q)
  | .pinf => .ninf

/-- One transposition-table entry: `{'value': ..., 'depth': ...}`. -/
structure TTEntry where
  value : Score
  depth : Nat
  deriving DecidableEq

/-- `self.transposition_table`: a dict from position key to entry, modelled
as an insertion-ordered association list (first match wins on lookup, like a
dict whose keys are unique). -/
abbrev TT := List (String × TTEntry)

/-- The state of one `ChessBot` object: search depth, the two tunable
configuration dicts, the opening book and the transposition table. -/
structure ChessBot (M : Type) where
  depth : Nat
  piece_values : PieceType → ℚ
  position_scores : PieceType → List ℚ
  opening_book : List (String × List (M × ℚ))
  transposition_table : TT

/-- `ChessBot.__init__(depth=3)`. -/
def newChessBot (M : Type) (depth : Nat := 3) : ChessBot M :=
  { depth := depth
    piece_values := defaultPieceValues
    position_scores := defaultPositionScores
    opening_book := []
    transposition_table := [] }

/--
The rules-engine boundary (the `chess` library): the operations `bot.py`
uses on a `chess.Board`.  `start` is `chess.Board()`, the standard starting
position.  `board_fen` is `Board.board_fen()`: the piece-placement field of
the FEN only (no side to move, castling, or clocks).
-/
structure Rules (Pos M : Type) where
  legal_moves : Pos → List M
  push : Pos → M → Pos
  is_game_over : Pos → Bool
  is_checkmate : Pos → Bool
  is_stalemate : Pos → Bool
  is_insufficient_material : Pos → Bool
  turn : Pos → Color
  board_fen : Pos → String
  halfmove_clock : Pos → Nat
  piece_at : Pos → Nat → Option Piece
  start : Pos

variable {Pos M : Type}

/-- The per-square term accumulated into `material_score` by
`ChessBot.evaluate_position`: `value = piece_values[type]`, plus
`position_scores[type][idx] / 10` with `idx = square` for White and
`63 - square` for Black, signed by the piece's color. -/
def squareTerm (bot : ChessBot M) (p : Option Piece) (s : ℕ) : ℚ :=
  match p with
  | none => 0
  | some pc =>
    let idx : ℕ := if pc.color = Color.white then s else 63 - s
    let value : ℚ := bot.piece_values pc.piece_type +
      ((bot.position_scores pc.piece_type).getD idx 0) / 10
    if pc.color = Color.white then value else -value

/-- `ChessBot.evaluate_position`.  Checkmate returns a ±10000 sentinel whose
sign is fixed by the board color of the side to move; stalemate and
insufficient material return 0; otherwise the signed material+positional sum
accumulated over `for square in range(64)`, negated when Black is to move
(mover-relative). -/
def ChessBot.evaluate_position (bot : ChessBot M) (R : Rules Pos M) (b : Pos) : ℚ :=
  if R.is_checkmate b then (if R.turn b = Color.white then -10000 else 10000)
  else if R.is_stalemate b || R.is_insufficient_material b then 0
  else
    let material_score : ℚ :=
      (((List.range 64).map (fun s => squareTerm bot (R.piece_at b s) s)).sum)
    if R.turn b = Color.white then material_score else -material_score

/-- `ChessBot.get_board_hash`: just `board.board_fen()`. -/
def ChessBot.get_board_hash (_bot : ChessBot M) (R : Rules Pos M) (b : Pos) : String :=
  R.board_fen b

/-- FEN character for a piece, as `python-chess` prints it in `board_fen()`:
White pieces uppercase, Black pieces lowercase. -/
def pieceChar : Piece → Char
  | ⟨.white, .pawn⟩ => 'P'
  | ⟨.white, .knight⟩ => 'N'
  | ⟨.white, .bishop⟩ => 'B'
  | ⟨.white, .rook⟩ => 'R'
  | ⟨.white, .queen⟩ => 'Q'
  | ⟨.white, .king⟩ => 'K'
  | ⟨.black, .pawn⟩ => 'p'
  | ⟨.black, .knight⟩ => 'n'
  | ⟨.black, .bishop⟩ => 'b'
  | ⟨.black, .rook⟩ => 'r'
  | ⟨.black, .queen⟩ => 'q'
  | ⟨.black, .king⟩ => 'k'

/-- One FEN rank (files a..h of rank `rank`), with empty squares run-length
encoded as digit characters, exactly as `python-chess` serializes it.
Squares are numbered `rank * 8 + file` with a1 = 0, h8 = 63. -/
def fenRank (pieces : ℕ → Option Piece) (rank : ℕ) : List Char :=
  let step : (ℕ × List Char) → ℕ → (ℕ × List Char) := fun acc file =>
    match pieces (rank * 8 + file) with
    | none => (acc.1 + 1, acc.2)
    | some p =>
      (0, acc.2 ++ (if acc.1 = 0 then [] else [Char.ofNat (48 + acc.1)]) ++ [pieceChar p])
  let r := (List.range 8).foldl step (0, [])
  r.2 ++ (if r.1 = 0 then [] else [Char.ofNat (48 + r.1)])

/-- `Board.board_fen()` of `python-chess`: the piece-placement field of the
FEN, ranks 8 down to 1 joined by `/`.  It depends only on the placement:
side to move, castling rights and clocks are not part of it. -/
def fenPlacement (pieces : ℕ → Option Piece) : String :=
  String.mk (List.intercalate ['/'] (((List.range 8).reverse).map (fenRank pieces)))

/-- A concrete chess position as far as `evaluate_position` and `board_fen`
observe it: the placement (squares 0..63; `none` elsewhere), the side to
move, and the terminal flags reported by the rules engine. -/
structure EBoard where
  pieces : ℕ → Option Piece
  turn : Color
  checkmate : Bool
  stalemate : Bool
  insufficient : Bool

/-- The rules-engine operations instantiated on `EBoard`s, with `board_fen`
the real placement-only FEN serialization.  Move generation is irrelevant to
the evaluation claims stated over this instance. -/
def ERules : Rules EBoard Unit :=
  { legal_moves := fun _ => []
    push := fun b _ => b
    is_game_over := fun b => b.checkmate || b.stalemate || b.insufficient
    is_checkmate := fun b => b.checkmate
    is_stalemate := fun b => b.stalemate
    is_insufficient_material := fun b => b.insufficient
    turn := fun b => b.turn
    board_fen := fun b => fenPlacement b.pieces
    halfmove_clock := fun _ => 0
    piece_at := fun b s => b.pieces s
    start := { pieces := fun _ => none, turn := .white
               checkmate := false, stalemate := false, insufficient := false } }

/-- Swap the color of a piece. -/
def Piece.swapColor (p : Piece) : Piece := ⟨p.color.swap, p.piece_type⟩

/-- The color-mirrored counterpart of a position: every piece moves to the
board-mirrored square (`63 - square`) with its color swapped, the side to
move flips, and the terminal statuses are unchanged (mirroring a checkmate,
stalemate or insufficient-material position yields one of the same kind). -/
def mirrorE (b : EBoard) : EBoard :=
  { pieces := fun s => (b.pieces (63 - s)).map Piece.swapColor
    turn := b.turn.swap
    checkmate := b.checkmate
    stalemate := b.stalemate
    insufficient := b.insufficient }

theorem sum_map_range (f : ℕ → ℚ) (n : ℕ) :
    ((List.range n).map f).sum = ∑ i ∈ Finset.range n, f i := by
  induction n with
  | zero => simp
  | succ n ih =>
    rw [List.range_succ, List.map_append, List.sum_append, Finset.sum_range_succ, ih]
    simp

theorem squareTerm_swap (bot : ChessBot M) (p : Option Piece) (u : ℕ) (hu : u < 64) :
    squareTerm bot (Option.map Piece.swapColor p) (63 - u) = - squareTerm bot p u := by
  cases p with
  | none => simp [squareTerm]
  | some pc =>
    obtain ⟨c, pt⟩ := pc
    cases c with
    | white =>
      have h1 : (63 : ℕ) - (63 - u) = u := by omega
      simp [squareTerm, Piece.swapColor, Color.swap, h1]
    | black =>
      simp [squareTerm, Piece.swapColor, Color.swap]

theorem material_sum_mirror (bot : ChessBot M) (pcs : ℕ → Option Piece) :
    ((List.range 64).map (fun s =>
        squareTerm bot (Option.map Piece.swapColor (pcs (63 - s))) s)).sum
      = -(((List.range 64).map (fun s => squareTerm bot (pcs s) s)).sum) := by
  rw [sum_map_range, sum_map_range, ← Finset.sum_neg_distrib,
    ← Finset.sum_range_reflect (fun t => -(squareTerm bot (pcs t) t)) 64]
  apply Finset.sum_congr rfl
  intro s hs
  have hs' : s < 64 := Finset.mem_range.1 hs
  have h64 : (64 : ℕ) - 1 - s = 63 - s := by omega
  rw [h64]
  have hu : 63 - s < 64 := by omega
  have h63 : 63 - (63 - s) = s := by omega
  have h := squareTerm_swap bot (pcs (63 - s)) (63 - s) hu
  rw [h63] at h
  exact h

theorem mirror_if_neg (c : Color) (S : ℚ) :
    (if c.swap = Color.white then -S else -(-S)) = (if c = Color.white then S else -S) := by
  cases c <;> simp [Color.swap]

theorem mirror_if_sentinel (c : Color) :
    (if c.swap = Color.white then (-10000 : ℚ) else 10000)
      = -(if c = Color.white then (-10000 : ℚ) else 10000) := by
  cases c <;> simp [Color.swap]

/-- The mover-relative evaluation is invariant under the color mirror on
non-terminal positions: the White-perspective material sum changes sign and
the side-to-move negation flips it back. -/
theorem eval_mirror_nonterminal (bot : ChessBot Unit) (b : EBoard)
    (h1 : b.checkmate = false) (h2 : b.stalemate = false) (h3 : b.insufficient = false) :
    bot.evaluate_position ERules (mirrorE b) = bot.evaluate_position ERules b := by
  simp only [ChessBot.evaluate_position, ERules, mirrorE, h1, h2, h3, Bool.or_self,
    Bool.false_eq_true, if_false]
  rw [material_sum_mirror bot b.pieces]
  exact mirror_if_neg b.turn _

/-- On a checkmated position, the color-fixed ±10000 sentinel *is* negated
under the color mirror (the side to move flips). -/
theorem eval_mirror_checkmate (bot : ChessBot Unit) (b : EBoard)
    (h1 : b.checkmate = true) :
    bot.evaluate_position ERules (mirrorE b) = - bot.evaluate_position ERules b := by
  simp only [ChessBot.evaluate_position, ERules, mirrorE, h1, if_true]
  exact mirror_if_sentinel b.turn

set_option maxRecDepth 2000 in
theorem range64_expand : List.range 64 =
    [0, 1, 2, 3, 4, 5, 6, 7, 8, 9, 10, 11, 12, 13, 14, 15, 16, 17, 18, 19,
     20, 21, 22, 23, 24, 25, 26, 27, 28, 29, 30, 31, 32, 33, 34, 35, 36, 37, 38, 39,
     40, 41, 42, 43, 44, 45, 46, 47, 48, 49, 50, 51, 52, 53, 54, 55, 56, 57, 58, 59,
     60, 61, 62, 63] := by
  decide

/-- A legal middlegame placement: White king a1 (square 0), Black king h8
(square 63), White pawn e4 (square 28). -/
def exPieces : ℕ → Option Piece := fun s =>
  if s = 0 then some ⟨.white, .king⟩
  else if s = 63 then some ⟨.black, .king⟩
  else if s = 28 then some ⟨.white, .pawn⟩
  else none

/-- The placement `exPieces` with White to move and no terminal flag. -/
def exBoard : EBoard :=
  { pieces := exPieces
    turn := .white
    checkmate := false
    stalemate := false
    insufficient := false }

/-- Concrete material sum of `exPieces` under the default configuration:
the two king terms cancel and the e4 pawn contributes `100 + 25/10`. -/
theorem exMaterial_sum :
    ((List.range 64).map (fun s => squareTerm (newChessBot Unit) (exPieces s) s)).sum
      = 205 / 2 := by
  have hp : pawnTable[28]?.getD 0 = (25 : ℚ) := by decide
  have hk : kingTable[0]?.getD 0 = (-30 : ℚ) := by decide
  rw [range64_expand]
  simp only [List.map_cons, List.map_nil, List.sum_cons, List.sum_nil]
  have hbw : Color.black ≠ Color.white := by decide
  norm_num [squareTerm, exPieces, newChessBot, defaultPieceValues, defaultPositionScores]
  simp only [hbw, if_false, if_neg]
  norm_num [hp, hk]

/-- `exBoard` evaluates to `+102.5` for the mover (White). -/
theorem eval_exBoard :
    ChessBot.evaluate_position (newChessBot Unit) ERules exBoard = 205 / 2 := by
  simp only [ChessBot.evaluate_position, ERules, exBoard]
  norm_num [exMaterial_sum]

/-- C4 (amended): under the color mirror (colors swapped, squares
board-mirrored, side to move flipped) the mover-relative
`evaluate_position` is **invariant** (equal, not negated) on every
non-terminal position; only the checkmate branch, whose ±10000 sentinel is
fixed by board color rather than mover-relative, returns negated values. -/
theorem c4_eval_mirror (bot : ChessBot Unit) (b : EBoard) :
    (b.checkmate = false → b.stalemate = false → b.insufficient = false →
      bot.evaluate_position ERules (mirrorE b) = bot.evaluate_position ERules b)
  ∧ (b.checkmate = true →
      bot.evaluate_position ERules (mirrorE b) = - bot.evaluate_position ERules b) :=
  ⟨fun h1 h2 h3 => eval_mirror_nonterminal bot b h1 h2 h3,
   fun h1 => eval_mirror_checkmate bot b h1⟩

/-- C4 counterexample: on the concrete non-terminal position `exBoard`
(White Ka1, Black Kh8, White Pe4, White to move — evaluation `+205/2`) the
color-mirrored counterpart also evaluates to `+205/2`, not to the negated
value, so `evaluate_position` is not antisymmetric under the color swap. -/
theorem c4_counterexample :
    ¬ (ChessBot.evaluate_position (newChessBot Unit) ERules (mirrorE exBoard)
        = - ChessBot.evaluate_position (newChessBot Unit) ERules exBoard) := by
  rw [eval_mirror_nonterminal (newChessBot Unit) exBoard rfl rfl rfl, eval_exBoard]
  norm_num

/-- Witness for `c4_eval_mirror` at concrete inputs: the non-terminal board
`exBoard` (evaluations equal) and the same placement flagged checkmate
(evaluations negated). -/
theorem c4_witness :
    ChessBot.evaluate_position (newChessBot Unit) ERules (mirrorE exBoard)
      = ChessBot.evaluate_position (newChessBot Unit) ERules exBoard
  ∧ ChessBot.evaluate_position (newChessBot Unit) ERules
        (mirrorE { exBoard with checkmate := true })
      = - ChessBot.evaluate_position (newChessBot Unit) ERules
        { exBoard with checkmate := true } :=
  ⟨(c4_eval_mirror (newChessBot Unit) exBoard).1 rfl rfl rfl,
   (c4_eval_mirror (newChessBot Unit) { exBoard with checkmate := true }).2 rfl⟩

/-- C6: on every checkmated position `evaluate_position` returns the ±10000
sentinel with its sign fixed by the board color of the side to move
(negative exactly when White is the side to move, i.e. is the mated side),
and on every stalemate or insufficient-material position (never
simultaneously a checkmate — in chess the conditions are mutually
exclusive, which the hypothesis records) it returns exactly 0. -/
theorem c6_sentinel_eval (bot : ChessBot M) (R : Rules Pos M) (b : Pos) :
    (R.is_checkmate b = true →
      bot.evaluate_position R b = (if R.turn b = Color.white then -10000 else 10000))
  ∧ (R.is_checkmate b = false →
      (R.is_stalemate b = true ∨ R.is_insufficient_material b = true) →
      bot.evaluate_position R b = 0) := by
  constructor
  · intro h
    simp [ChessBot.evaluate_position, h]
  · intro h hs
    rcases hs with hs | hs <;> simp [ChessBot.evaluate_position, h, hs]

/-- Witness for `c6_sentinel_eval`: the concrete placement of `exBoard`
flagged checkmate (White to move) evaluates to exactly `-10000`, and
flagged stalemate it evaluates to exactly `0`. -/
theorem c6_witness :
    ChessBot.evaluate_position (newChessBot Unit) ERules { exBoard with checkmate := true }
      = -10000
  ∧ ChessBot.evaluate_position (newChessBot Unit) ERules { exBoard with stalemate := true }
      = 0 := by
  constructor
  · have h := (c6_sentinel_eval (newChessBot Unit) ERules
      { exBoard with checkmate := true }).1 rfl
    rw [h]
    rfl
  · exact (c6_sentinel_eval (newChessBot Unit) ERules
      { exBoard with stalemate := true }).2 rfl (Or.inl rfl)

/-- The cumulative walk of `ChessBot.get_book_move`: accumulate weights and
return the first move whose running sum meets the draw; `none` if the loop
finishes (the final `return None`). -/
def bookWalk : List (M × ℚ) → ℚ → ℚ → Option M
  | [], _, _ => none
  | (mv, weight) :: rest, cumulative, rdraw =>
    let c := cumulative + weight
    if rdraw ≤ c then some mv else bookWalk rest c rdraw

/-- `ChessBot.get_book_move`.  The key is `board_fen()` plus an explicit
side-to-move marker; `random.random()` is modelled by the parameter
`r ∈ [0, 1)`, and the draw is `r * total_weight`. -/
def ChessBot.get_book_move (bot : ChessBot M) (R : Rules Pos M) (b : Pos) (r : ℚ) :
    Option M :=
  let fen := R.board_fen b ++ " " ++ (if R.turn b = Color.white then "w" else "b")
  match List.lookup fen bot.opening_book with
  | none => none
  | some moves =>
    let total_weight := (moves.map Prod.snd).sum
    if total_weight ≤ 0 then none
    else bookWalk moves 0 (r * total_weight)

/-- `self.transposition_table[board_hash] = entry`: dict assignment —
overwrite the entry of an existing key in place, else append a new key. -/
def ttStore (tt : TT) (k : String) (e : TTEntry) : TT :=
  if (List.lookup k tt).isSome then
    tt.map (fun p => if p.1 = k then (k, e) else p)
  else tt ++ [(k, e)]

/-- The maximizing move loop of `ChessBot.minimax`: `value = max(value,
step(child))`, `alpha = max(alpha, value)`, `break` when `alpha >= beta`;
`step` is the depth-decremented recursive call, and the transposition table
threads through the children left to right. -/
def maxLoop (step : Pos → Score → Score → TT → Score × TT) (R : Rules Pos M) (b : Pos) :
    List M → Score → Score → Score → TT → Score × TT
  | [], value, _alpha, _beta, tt => (value, tt)
  | mv :: rest, value, alpha, beta, tt =>
    let r := step (R.push b mv) alpha beta tt
    let value' := Score.max value r.1
    let alpha' := Score.max alpha value'
    if Score.le beta alpha' then (value', r.2)
    else maxLoop step R b rest value' alpha' beta r.2

/-- The minimizing move loop of `ChessBot.minimax`: `value = min(value,
step(child))`, `beta = min(beta, value)`, `break` when `alpha >= beta`. -/
def minLoop (step : Pos → Score → Score → TT → Score × TT) (R : Rules Pos M) (b : Pos) :
    List M → Score → Score → Score → TT → Score × TT
  | [], value, _alpha, _beta, tt => (value, tt)
  | mv :: rest, value, alpha, beta, tt =>
    let r := step (R.push b mv) alpha beta tt
    let value' := Score.min value r.1
    let beta' := Score.min beta value'
    if Score.le beta' alpha then (value', r.2)
    else minLoop step R b rest value' alpha beta' r.2

/-- `ChessBot.minimax`.  A cached entry is returned when its stored depth is
`>= depth`; at `depth == 0` or game over the static evaluation is computed
and stored; otherwise the maximizing/minimizing alpha-beta loop runs over
the legal moves and the resulting value is stored under the position hash
with the current remaining depth.  (The Python guard `depth == 0 or
board.is_game_over()` is split on the `Nat` pattern of `depth`; the two
branches compute identical leaf values.) -/
def ChessBot.minimax (bot : ChessBot M) (R : Rules Pos M) :
    Nat → Pos → Score → Score → Bool → TT → Score × TT
  | depth, b, alpha, beta, maximizing_player, tt =>
    let board_hash := bot.get_board_hash R b
    let cached : Option Score :=
      match List.lookup board_hash tt with
      | some e => if depth ≤ e.depth then some e.value else none
      | none => none
    match cached with
    | some v => (v, tt)
    | none =>
      match depth with
      | 0 =>
        let value : Score := .fin (bot.evaluate_position R b)
        (value, ttStore tt board_hash ⟨value, 0⟩)
      | d + 1 =>
        if R.is_game_over b then
          let value : Score := .fin (bot.evaluate_position R b)
          (value, ttStore tt board_hash ⟨value, d + 1⟩)
        else
          let legal_moves := R.legal_moves b
          let r :=
            if maximizing_player then
              maxLoop (fun b2 a2 b3 t2 => bot.minimax R d b2 a2 b3 false t2) R b
                legal_moves .ninf alpha beta tt
            else
              minLoop (fun b2 a2 b3 t2 => bot.minimax R d b2 a2 b3 true t2) R b
                legal_moves .pinf alpha beta tt
          (r.1, ttStore r.2 board_hash ⟨r.1, d + 1⟩)

/-- The root loop of `ChessBot.get_move`: score each legal move as
`-minimax(push(move), depth - 1, -beta, -alpha, False)`, keep the first move
whose value strictly exceeds the best so far, raise `alpha`, and examine
every move (no beta cutoff at the root; `beta` is never changed). -/
def ChessBot.rootLoop (bot : ChessBot M) (R : Rules Pos M) (b : Pos) :
    List M → Option M → Score → Score → Score → TT → Option M × TT
  | [], best_move, _bv, _alpha, _beta, tt => (best_move, tt)
  | mv :: rest, best_move, best_value, alpha, beta, tt =>
    let r := bot.minimax R (bot.depth - 1) (R.push b mv) beta.neg alpha.neg false tt
    let value := r.1.neg
    let best' := if best_value.lt value then some mv else best_move
    let bv' := if best_value.lt value then value else best_value
    let alpha' := Score.max alpha value
    bot.rootLoop R b rest best' bv' alpha' beta r.2

/-- `ChessBot.get_move`: `None` on an empty legal-move list; a legal
opening-book move is returned immediately (skipping search and leaving the
transposition table untouched); otherwise the root alpha-beta loop over all
legal moves in order, starting from `best_value = alpha = -inf`,
`beta = +inf`. -/
def ChessBot.get_move [DecidableEq M] (bot : ChessBot M) (R : Rules Pos M) (b : Pos)
    (r : ℚ) (tt : TT) : Option M × TT :=
  let legal_moves := R.legal_moves b
  if legal_moves.isEmpty then (none, tt)
  else
    match bot.get_book_move R b r with
    | some book_move =>
      if book_move ∈ legal_moves then (some book_move, tt)
      else bot.rootLoop R b legal_moves none .ninf .ninf .pinf tt
    | none => bot.rootLoop R b legal_moves none .ninf .ninf .pinf tt

/-- Modelled from the spec: "the value that plain (unpruned) minimax would
compute at depth `d` from that position" — the same leaf evaluation as
`ChessBot.minimax` but with no transposition table and no alpha-beta
cutoffs. -/
def plainMinimax (bot : ChessBot M) (R : Rules Pos M) : Nat → Pos → Bool → Score
  | 0, b, _ => .fin (bot.evaluate_position R b)
  | d + 1, b, maximizing =>
    if R.is_game_over b then .fin (bot.evaluate_position R b)
    else
      let vs := (R.legal_moves b).map
        (fun mv => plainMinimax bot R d (R.push b mv) (!maximizing))
      if maximizing then vs.foldl Score.max .ninf else vs.foldl Score.min .pinf

/-- Two chess positions with the identical placement `exPieces` (White Ka1,
Black Kh8, White Pe4) that differ only in the side to move: `true` is the
position with White to move, `false` the one with Black to move.  Both
positions are legal and reachable; `board_fen` is the real placement-only
FEN, which is the same string for both. -/
def CRules : Rules Bool Unit :=
  { legal_moves := fun _ => [()]
    push := fun b _ => b
    is_game_over := fun _ => false
    is_checkmate := fun _ => false
    is_stalemate := fun _ => false
    is_insufficient_material := fun _ => false
    turn := fun b => if b then Color.white else Color.black
    board_fen := fun _ => fenPlacement exPieces
    halfmove_clock := fun _ => 0
    piece_at := fun _ s => exPieces s
    start := true }

/-- C2 failing input: `get_board_hash` returns `board.board_fen()`, the
placement-only FEN, so two positions with identical placement but different
sides to move receive the *same* transposition key. -/
theorem c2_hash_ignores_turn :
    ChessBot.get_board_hash (newChessBot Unit) CRules true
      = ChessBot.get_board_hash (newChessBot Unit) CRules false
  ∧ CRules.turn true ≠ CRules.turn false := by
  exact ⟨rfl, by decide⟩

theorem eval_CW :
    ChessBot.evaluate_position (newChessBot Unit) CRules true = 205 / 2 := by
  simp only [ChessBot.evaluate_position, CRules]
  norm_num [exMaterial_sum]

theorem eval_CB :
    ChessBot.evaluate_position (newChessBot Unit) CRules false = -(205 / 2) := by
  simp only [ChessBot.evaluate_position, CRules]
  norm_num [exMaterial_sum]
  decide

/-- C3 failing input: after `minimax` evaluates the White-to-move position
at depth 0 (storing `+205/2` under the placement-only key), a `minimax`
call on the Black-to-move position with the same placement retrieves that
cached `+205/2` — but plain unpruned minimax at depth 0 from the
Black-to-move position computes `-205/2`.  A value retrieved from the
transposition table is *not* always the plain-minimax value of the queried
position. -/
theorem c3_table_unsound :
    ((ChessBot.minimax (newChessBot Unit) CRules 0 false Score.ninf Score.pinf true
        ((ChessBot.minimax (newChessBot Unit) CRules 0 true Score.ninf Score.pinf true
          []).2)).1
      = Score.fin (205 / 2))
  ∧ plainMinimax (newChessBot Unit) CRules 0 false true = Score.fin (-(205 / 2))
  ∧ Score.fin ((205 : ℚ) / 2) ≠ Score.fin (-(205 / 2)) := by
  have hfenW : ChessBot.get_board_hash (newChessBot Unit) CRules true
      = fenPlacement exPieces := rfl
  have hfenB : ChessBot.get_board_hash (newChessBot Unit) CRules false
      = fenPlacement exPieces := rfl
  have h1 : (ChessBot.minimax (newChessBot Unit) CRules 0 true Score.ninf Score.pinf true [])
      = (Score.fin (205 / 2),
         [(fenPlacement exPieces, ⟨Score.fin (205 / 2), 0⟩)]) := by
    simp [ChessBot.minimax, hfenW, ttStore, eval_CW]
  refine ⟨?_, ?_, ?_⟩
  · rw [h1]
    simp [ChessBot.minimax, hfenB]
  · simp [plainMinimax, eval_CB]
  · simp only [ne_eq, Score.fin.injEq]
    norm_num

/-- The opening-book key built twice in `bot.py`: `board.board_fen()` plus
an explicit `' w'`/`' b'` side-to-move marker. -/
def fenKey (R : Rules Pos M) (b : Pos) : String :=
  R.board_fen b ++ " " ++ (if R.turn b = Color.white then "w" else "b")

/-- The scan of `update_opening_book` over one bucket: find the first entry
for the move and add `inc` to its weight (breaking out of the scan, so later
entries are untouched), else append the move with weight `initW`. -/
def bumpMove [DecidableEq M] : List (M × ℚ) → M → ℚ → ℚ → List (M × ℚ)
  | [], mv, _inc, initW => [(mv, initW)]
  | (book_move, weight) :: rest, mv, inc, initW =>
    if book_move = mv then (book_move, weight + inc) :: rest
    else (book_move, weight) :: bumpMove rest mv inc initW

/-- `self.opening_book[fen] = bucket`: dict assignment — replace the bucket
of an existing key in place, else append the key (insertion order). -/
def bookSet (book : List (String × List (M × ℚ))) (k : String) (v : List (M × ℚ)) :
    List (String × List (M × ℚ)) :=
  if (List.lookup k book).isSome then
    book.map (fun p => if p.1 = k then (k, v) else p)
  else book ++ [(k, v)]

/-- The replay loop of `update_opening_book`: for each ply, find-or-create
the bucket keyed by the position before the move (`if fen not in
self.opening_book: self.opening_book[fen] = []`), bump the move's weight
(`+5` decisive / `+2` draw, inserting with `10` / `5`), then push the move. -/
def bookReplay [DecidableEq M] (R : Rules Pos M) (game_result : Int) :
    List M → Pos → List (String × List (M × ℚ)) → List (String × List (M × ℚ))
  | [], _, book => book
  | mv :: rest, board, book =>
    let fen := fenKey R board
    let bucket := (List.lookup fen book).getD []
    let book' := bookSet book fen
      (bumpMove bucket mv (if game_result ≠ 0 then 5 else 2)
        (if game_result ≠ 0 then 10 else 5))
    bookReplay R game_result rest (R.push board mv) book'

/-- `ChessBot.update_opening_book(game_result, moves, color)`: applied only
when the updated color won (`game_result == 1` and White, or `== -1` and
Black) or the game was a draw (`== 0`); replays the first 15 plies from the
starting position. -/
def ChessBot.update_opening_book [DecidableEq M] (bot : ChessBot M) (R : Rules Pos M)
    (game_result : Int) (moves : List M) (color : Color) : ChessBot M :=
  if (game_result = 1 ∧ color = Color.white) ∨ (game_result = -1 ∧ color = Color.black)
      ∨ game_result = 0 then
    { bot with
      opening_book := bookReplay R game_result (moves.take 15) R.start bot.opening_book }
  else bot

theorem lookup_mem {α β : Type} [BEq α] [LawfulBEq α] {k : α} {v : β} :
    ∀ {l : List (α × β)}, List.lookup k l = some v → (k, v) ∈ l := by
  intro l
  induction l with
  | nil => intro h; simp [List.lookup] at h
  | cons p rest ih =>
    intro h
    obtain ⟨a, b⟩ := p
    cases hk : (k == a) with
    | true =>
      have hka : k = a := by simpa using hk
      simp only [List.lookup, hk, Option.some.injEq] at h
      subst hka
      subst h
      exact List.mem_cons_self _ _
    | false =>
      simp only [List.lookup, hk] at h
      exact List.mem_cons_of_mem _ (ih h)

theorem bumpMove_new [DecidableEq M] (bucket : List (M × ℚ)) (mv : M) (inc initW : ℚ)
    (h : ∀ p ∈ bucket, p.1 ≠ mv) :
    bumpMove bucket mv inc initW = bucket ++ [(mv, initW)] := by
  induction bucket with
  | nil => rfl
  | cons p rest ih =>
    obtain ⟨bm, w⟩ := p
    have hbm : bm ≠ mv := h (bm, w) (List.mem_cons_self _ _)
    simp only [bumpMove, if_neg hbm, List.cons_append, List.cons.injEq, true_and]
    exact ih (fun q hq => h q (List.mem_cons_of_mem _ hq))

theorem bumpMove_existing [DecidableEq M] (pre post : List (M × ℚ)) (mv : M)
    (w inc initW : ℚ) (h : mv ∉ pre.map Prod.fst) :
    bumpMove (pre ++ (mv, w) :: post) mv inc initW = pre ++ (mv, w + inc) :: post := by
  induction pre with
  | nil => simp [bumpMove]
  | cons p rest ih =>
    obtain ⟨bm, w'⟩ := p
    have hbm : bm ≠ mv := by
      intro he
      exact h (by simp [he])
    simp only [List.cons_append, bumpMove, if_neg hbm, List.cons.injEq, true_and]
    exact ih (fun he => h (List.mem_cons_of_mem _ he))

theorem bumpMove_fst [DecidableEq M] (bucket : List (M × ℚ)) (mv : M) (inc initW : ℚ) :
    (bumpMove bucket mv inc initW).map Prod.fst
      = if mv ∈ bucket.map Prod.fst then bucket.map Prod.fst
        else bucket.map Prod.fst ++ [mv] := by
  induction bucket with
  | nil => simp [bumpMove]
  | cons p rest ih =>
    obtain ⟨bm, w⟩ := p
    by_cases hbm : bm = mv
    · subst hbm
      simp [bumpMove]
    · simp only [bumpMove, if_neg hbm, List.map_cons, ih]
      have : (mv ∈ bm :: rest.map Prod.fst) = (mv ∈ rest.map Prod.fst) := by
        simp [List.mem_cons, (Ne.symm hbm)]
      by_cases hm : mv ∈ rest.map Prod.fst <;> simp [hm, Ne.symm hbm]

theorem bumpMove_nodup [DecidableEq M] (bucket : List (M × ℚ)) (mv : M) (inc initW : ℚ)
    (h : (bucket.map Prod.fst).Nodup) :
    ((bumpMove bucket mv inc initW).map Prod.fst).Nodup := by
  rw [bumpMove_fst]
  by_cases hm : mv ∈ bucket.map Prod.fst
  · simp [hm, h]
  · simp only [hm, if_false]
    exact List.Nodup.append h (List.nodup_singleton mv) (by simpa using hm)

theorem bookSet_mem {kv : String × List (M × ℚ)}
    {book : List (String × List (M × ℚ))} {k : String} {v : List (M × ℚ)}
    (h : kv ∈ bookSet book k v) : kv ∈ book ∨ kv = (k, v) := by
  unfold bookSet at h
  by_cases hs : (List.lookup k book).isSome
  · simp only [hs, if_true, List.mem_map] at h
    obtain ⟨p, hp, he⟩ := h
    by_cases hpk : p.1 = k
    · right
      simp [hpk] at he
      exact he.symm
    · left
      simp [hpk] at he
      exact he ▸ hp
  · simp only [hs, Bool.false_eq_true, if_false, List.mem_append, List.mem_singleton] at h
    exact h

theorem bookReplay_nodup [DecidableEq M] (R : Rules Pos M) (gr : Int) :
    ∀ (moves : List M) (board : Pos) (book : List (String × List (M × ℚ))),
      (∀ kv ∈ book, (kv.2.map Prod.fst).Nodup) →
      ∀ kv ∈ bookReplay R gr moves board book, (kv.2.map Prod.fst).Nodup := by
  intro moves
  induction moves with
  | nil => intro board book hb kv hkv; exact hb kv hkv
  | cons mv rest ih =>
    intro board book hb kv hkv
    refine ih (R.push board mv) _ ?_ kv hkv
    intro kv' hkv'
    rcases bookSet_mem hkv' with h | h
    · exact hb kv' h
    · subst h
      apply bumpMove_nodup
      cases hl : List.lookup (fenKey R board) book with
      | none => simp
      | some bucket =>
        simpa using hb (fenKey R board, bucket) (lookup_mem hl)

/-- C8: `update_opening_book` leaves the bot entirely unchanged when the
updated color lost; when the color won or the game was drawn it replays
exactly the first 15 plies from the starting position and touches only the
opening book.  Per ply the bucket keyed by the position before the move has
the move's existing weight incremented by `+5` (decisive) / `+2` (draw) —
first matching entry only, later entries untouched — or the move appended
with initial weight `10` / `5`; the update never creates a duplicate entry
for the same move within a bucket. -/
theorem c8_update_opening_book [DecidableEq M] (R : Rules Pos M) :
    (∀ (bot : ChessBot M) (gr : Int) (moves : List M) (color : Color),
      ¬((gr = 1 ∧ color = Color.white) ∨ (gr = -1 ∧ color = Color.black) ∨ gr = 0) →
      bot.update_opening_book R gr moves color = bot)
  ∧ (∀ (bot : ChessBot M) (gr : Int) (moves : List M) (color : Color),
      ((gr = 1 ∧ color = Color.white) ∨ (gr = -1 ∧ color = Color.black) ∨ gr = 0) →
      (bot.update_opening_book R gr moves color).opening_book
          = bookReplay R gr (moves.take 15) R.start bot.opening_book
        ∧ (bot.update_opening_book R gr moves color).piece_values = bot.piece_values
        ∧ (bot.update_opening_book R gr moves color).position_scores = bot.position_scores
        ∧ (bot.update_opening_book R gr moves color).transposition_table
            = bot.transposition_table)
  ∧ (∀ (bucket : List (M × ℚ)) (mv : M) (inc initW : ℚ),
      (∀ p ∈ bucket, p.1 ≠ mv) →
      bumpMove bucket mv inc initW = bucket ++ [(mv, initW)])
  ∧ (∀ (pre post : List (M × ℚ)) (mv : M) (w inc initW : ℚ),
      mv ∉ pre.map Prod.fst →
      bumpMove (pre ++ (mv, w) :: post) mv inc initW = pre ++ (mv, w + inc) :: post)
  ∧ (∀ (board : Pos) (book : List (String × List (M × ℚ))) (gr : Int) (mv : M),
      bookReplay R gr [mv] board book
        = bookSet book (fenKey R board)
            (bumpMove ((List.lookup (fenKey R board) book).getD []) mv
              (if gr ≠ 0 then 5 else 2) (if gr ≠ 0 then 10 else 5)))
  ∧ (∀ (bot : ChessBot M) (gr : Int) (moves : List M) (color : Color),
      (∀ kv ∈ bot.opening_book, (kv.2.map Prod.fst).Nodup) →
      ∀ kv ∈ (bot.update_opening_book R gr moves color).opening_book,
        (kv.2.map Prod.fst).Nodup) := by
  refine ⟨?_, ?_, ?_, ?_, ?_, ?_⟩
  · intro bot gr moves color h
    simp [ChessBot.update_opening_book, h]
  · intro bot gr moves color h
    simp [ChessBot.update_opening_book, h]
  · intro bucket mv inc initW h
    exact bumpMove_new bucket mv inc initW h
  · intro pre post mv w inc initW h
    exact bumpMove_existing pre post mv w inc initW h
  · intro board book gr mv
    rfl
  · intro bot gr moves color hb kv hkv
    by_cases h : (gr = 1 ∧ color = Color.white) ∨ (gr = -1 ∧ color = Color.black) ∨ gr = 0
    · simp only [ChessBot.update_opening_book, h, if_true] at hkv
      exact bookReplay_nodup R gr (moves.take 15) R.start bot.opening_book hb kv hkv
    · simp only [ChessBot.update_opening_book, h, if_false] at hkv
      exact hb kv hkv

/-- A trivial one-position rules instance over `Nat` moves, used to witness
the opening-book bookkeeping at concrete inputs. -/
def WRules : Rules Unit Nat :=
  { legal_moves := fun _ => [1, 2]
    push := fun _ _ => ()
    is_game_over := fun _ => false
    is_checkmate := fun _ => false
    is_stalemate := fun _ => false
    is_insufficient_material := fun _ => false
    turn := fun _ => Color.white
    board_fen := fun _ => "s"
    halfmove_clock := fun _ => 0
    piece_at := fun _ _ => none
    start := () }

/-- Witness for `c8_update_opening_book` at concrete inputs: an update for
the losing color (Black after a White win) leaves the bot unchanged; a
winning update's book is the 15-ply replay; a new move is appended with the
initial weight and an existing move's first entry gets the increment. -/
theorem c8_witness :
    ChessBot.update_opening_book (newChessBot Nat) WRules 1 [1, 2] Color.black
        = newChessBot Nat
  ∧ (ChessBot.update_opening_book (newChessBot Nat) WRules 1 [1, 2] Color.white).opening_book
        = bookReplay WRules 1 ([1, 2].take 15) WRules.start (newChessBot Nat).opening_book
  ∧ bumpMove [(1, 10)] 2 5 10 = [(1, 10)] ++ [((2 : ℕ), (10 : ℚ))]
  ∧ bumpMove ([(1, 3)] ++ (2, 4) :: []) 2 5 10 = [(1, 3)] ++ ((2 : ℕ), (4 : ℚ) + 5) :: [] := by
  refine ⟨?_, ?_, ?_, ?_⟩
  · exact (c8_update_opening_book WRules).1 (newChessBot Nat) 1 [1, 2] Color.black
      (by decide)
  · exact ((c8_update_opening_book WRules).2.1 (newChessBot Nat) 1 [1, 2] Color.white
      (by decide)).1
  · exact (c8_update_opening_book WRules).2.2.1 [(1, 10)] 2 5 10 (by decide)
  · exact (c8_update_opening_book WRules).2.2.2.1 [(1, 3)] [] 2 4 5 10 (by decide)

/-- The per-iteration statistics dict built by
`SelfPlayTrainer.analyze_results`. -/
structure Analysis where
  bot1_wins : Nat
  bot2_wins : Nat
  draws : Nat
  bot1_win_rate : ℚ
  bot2_win_rate : ℚ
  draw_rate : ℚ
  deriving DecidableEq

/-- The state of one `SelfPlayTrainer` object. -/
structure SelfPlayTrainer (M : Type) where
  bot_constructor : Unit → ChessBot M
  games_per_iteration : Nat
  iterations : Nat
  best_bot : ChessBot M
  performance_history : List (Nat × Analysis)

/-- `SelfPlayTrainer.__init__`: `self.best_bot = bot_constructor()`. -/
def newSelfPlayTrainer (ctor : Unit → ChessBot M) (games_per_iteration : Nat := 50)
    (iterations : Nat := 10) : SelfPlayTrainer M :=
  { bot_constructor := ctor
    games_per_iteration := games_per_iteration
    iterations := iterations
    best_bot := ctor ()
    performance_history := [] }

/-- `for i in range(len(xs)): xs[i] *= f(i)` — multiply each list entry by
its per-index factor. -/
def mulIdx (f : ℕ → ℚ) : ℕ → List ℚ → List ℚ
  | _, [] => []
  | i, x :: xs => (x * f i) :: mulIdx f (i + 1) xs

/-- `SelfPlayTrainer.create_challenger`: builds a bot by calling
`self.bot_constructor()` (a fresh object, *not* a copy of `self.best_bot`),
then multiplies every material value and every positional-table entry by its
own `random.uniform(0.95, 1.05)` draw.  The draws are passed in as `fv` (one
per piece type) and `fp` (one per piece type and table index); the
`hasattr` guards of the Python code are always true for a `ChessBot`. -/
def SelfPlayTrainer.create_challenger (t : SelfPlayTrainer M)
    (fv : PieceType → ℚ) (fp : PieceType → ℕ → ℚ) : ChessBot M :=
  let challenger := t.bot_constructor ()
  { challenger with
    piece_values := fun pt => challenger.piece_values pt * fv pt
    position_scores := fun pt => mulIdx (fp pt) 0 (challenger.position_scores pt) }

/-- `SelfPlayTrainer.update_best_bot`: on a strictly greater challenger win
rate, replace only `best_bot.piece_values` and `best_bot.position_scores`
with (deep copies of) the challenger's; otherwise do nothing. -/
def SelfPlayTrainer.update_best_bot (t : SelfPlayTrainer M) (challenger : ChessBot M)
    (analysis : Analysis) : SelfPlayTrainer M :=
  if analysis.bot2_win_rate > analysis.bot1_win_rate then
    { t with best_bot :=
        { t.best_bot with
          piece_values := challenger.piece_values
          position_scores := challenger.position_scores } }
  else t

/-- C1 (amended): `create_challenger` does **not** copy the incumbent — it
calls the trainer's `bot_constructor` (producing the constructor's fresh
default configuration, independent of the incumbent's possibly-promoted
values) and then multiplies every material value and every positional-table
entry by its independent uniform factor; the opening book, table and depth
are the fresh constructor's. -/
theorem c1_create_challenger (t : SelfPlayTrainer M)
    (fv : PieceType → ℚ) (fp : PieceType → ℕ → ℚ) :
    (∀ pt, (t.create_challenger fv fp).piece_values pt
        = (t.bot_constructor ()).piece_values pt * fv pt)
  ∧ (∀ pt, (t.create_challenger fv fp).position_scores pt
        = mulIdx (fp pt) 0 ((t.bot_constructor ()).position_scores pt))
  ∧ (∀ b : ChessBot M,
      SelfPlayTrainer.create_challenger { t with best_bot := b } fv fp
        = t.create_challenger fv fp)
  ∧ (t.create_challenger fv fp).opening_book = (t.bot_constructor ()).opening_book
  ∧ (t.create_challenger fv fp).depth = (t.bot_constructor ()).depth :=
  ⟨fun _ => rfl, fun _ => rfl, fun _ => rfl, rfl, rfl⟩

/-- A trainer whose incumbent has been promoted to a pawn value of 105
(reachable after one promotion with the maximal 1.05 factor), while the
constructor still produces the defaults. -/
def promotedTrainer : SelfPlayTrainer Unit :=
  { bot_constructor := fun _ => newChessBot Unit
    games_per_iteration := 50
    iterations := 10
    best_bot := { newChessBot Unit with
      piece_values := fun pt => if pt = PieceType.pawn then 105 else defaultPieceValues pt }
    performance_history := [] }

/-- C1 counterexample: with all jitter factors equal to 1 (a value inside
[0.95, 1.05], making the jitter the identity, so the pre-jitter copy is
observed directly), the challenger's pawn value is the constructor default
100 and not the promoted incumbent's 105: the challenger is *not* a deep
copy of the incumbent's current configuration. -/
theorem c1_counterexample :
    (promotedTrainer.create_challenger (fun _ => 1) (fun _ _ => 1)).piece_values
        PieceType.pawn = 100
  ∧ promotedTrainer.best_bot.piece_values PieceType.pawn = 105
  ∧ (100 : ℚ) ≠ 105 := by
  refine ⟨?_, rfl, by norm_num⟩
  show defaultPieceValues PieceType.pawn * 1 = 100
  norm_num [defaultPieceValues]

/-- C9: `update_best_bot` promotes exactly when the challenger's win rate
strictly exceeds the incumbent's; promotion replaces only the incumbent's
material values and positional tables with the challenger's, leaving the
opening book, the transposition table, the depth and the rest of the
trainer unchanged; on an equal or lower rate the trainer is unchanged. -/
theorem c9_update_best_bot (t : SelfPlayTrainer M) (challenger : ChessBot M)
    (analysis : Analysis) :
    (analysis.bot2_win_rate > analysis.bot1_win_rate →
      (t.update_best_bot challenger analysis).best_bot.piece_values
          = challenger.piece_values
      ∧ (t.update_best_bot challenger analysis).best_bot.position_scores
          = challenger.position_scores
      ∧ (t.update_best_bot challenger analysis).best_bot.opening_book
          = t.best_bot.opening_book
      ∧ (t.update_best_bot challenger analysis).best_bot.transposition_table
          = t.best_bot.transposition_table
      ∧ (t.update_best_bot challenger analysis).best_bot.depth = t.best_bot.depth
      ∧ (t.update_best_bot challenger analysis).bot_constructor = t.bot_constructor
      ∧ (t.update_best_bot challenger analysis).performance_history
          = t.performance_history)
  ∧ (¬ analysis.bot2_win_rate > analysis.bot1_win_rate →
      t.update_best_bot challenger analysis = t) := by
  constructor
  · intro h
    simp [SelfPlayTrainer.update_best_bot, h]
  · intro h
    simp [SelfPlayTrainer.update_best_bot, h]

/-- Witness for `c9_update_best_bot`: a challenger win rate of 1 against an
incumbent rate of 0 promotes (and keeps the book/table), while equal rates
of 0 leave the trainer unchanged. -/
theorem c9_witness :
    ((promotedTrainer.update_best_bot (newChessBot Unit)
        ⟨0, 1, 0, 0, 1, 0⟩).best_bot.piece_values = (newChessBot Unit).piece_values
      ∧ (promotedTrainer.update_best_bot (newChessBot Unit)
        ⟨0, 1, 0, 0, 1, 0⟩).best_bot.opening_book = promotedTrainer.best_bot.opening_book)
  ∧ promotedTrainer.update_best_bot (newChessBot Unit) ⟨0, 0, 0, 0, 0, 0⟩
      = promotedTrainer := by
  constructor
  · have h := (c9_update_best_bot promotedTrainer (newChessBot Unit) ⟨0, 1, 0, 0, 1, 0⟩).1
      (by norm_num)
    exact ⟨h.1, h.2.2.1⟩
  · exact (c9_update_best_bot promotedTrainer (newChessBot Unit) ⟨0, 0, 0, 0, 0, 0⟩).2
      (by norm_num)

/-- The result string of `SelfPlayTrainer.play_game`. -/
inductive GameResult where
  | bot1
  | bot2
  | draw
  deriving DecidableEq

/-- Why a game run stopped: one of the three explicit draw stops
(`repetition` at the 3rd key occurrence, `fifty` at half-move clock 100,
`cap` past 200 plies), the defensive `nomove` break, or the rules engine
reporting the game over (`mate` when checkmate, `natural` otherwise).
Pure instrumentation: it does not influence the computed result. -/
inductive StopReason where
  | repetition
  | fifty
  | cap
  | nomove
  | mate
  | natural
  deriving DecidableEq

/-- A bot as the trainer's game loop sees it (duck typing): any object with
a `get_move`, possibly stateful — the real `ChessBot.get_move` mutates the
object's transposition table, so the state `B` threads through. -/
structure GameBot (Pos M B : Type) where
  get_move : B → Pos → Option M × B

/-- The outcome of one `play_game` call: `result` is exactly the string the
Python function returns, `final` the board object after the loop (mutated in
place in Python), `moves` the out-parameter move list; `reason` and `movers`
(side to move and whether bot1 chose, per ply) are instrumentation, and
`endState1`/`endState2` are the bots' final states. -/
structure GameRun (Pos M B1 B2 : Type) where
  result : GameResult
  reason : StopReason
  final : Pos
  moves : List M
  movers : List (Color × Bool)
  endState1 : B1
  endState2 : B2

/-- The classification after `play_game`'s loop: `'bot1'` iff checkmate with
Black to move, `'bot2'` iff checkmate with White to move, else `'draw'`. -/
def classifyEnd (R : Rules Pos M) (b : Pos) : GameResult :=
  if R.is_checkmate b then (if R.turn b = Color.black then .bot1 else .bot2) else .draw

/-- The `while not board.is_game_over()` loop of `play_game`, with explicit
fuel.  Each iteration either exits or increments `move_count`, and the
`move_count > 200` cap stops the loop after at most 201 recursive steps, so
with the fuel `202` used by `play_game` the out-of-fuel branch is
unreachable (`play_game_loop_fuel` below makes this precise). -/
def play_game_loop {B1 B2 : Type} (R : Rules Pos M) (gb1 : GameBot Pos M B1)
    (gb2 : GameBot Pos M B2) :
    Nat → Pos → B1 → B2 → (String → Nat) → List M → List (Color × Bool) → Nat →
      GameRun Pos M B1 B2
  | 0, board, s1, s2, _, moves, movers, _ =>
    ⟨classifyEnd R board, if R.is_checkmate board then .mate else .natural, board, moves,
      movers, s1, s2⟩
  | fuel + 1, board, s1, s2, position_history, moves, movers, move_count =>
    if R.is_game_over board then
      ⟨classifyEnd R board, if R.is_checkmate board then .mate else .natural, board, moves,
        movers, s1, s2⟩
    else
      let key := R.board_fen board
      let ph := fun k => if k = key then position_history k + 1 else position_history k
      if 3 ≤ ph key ∨ 100 ≤ R.halfmove_clock board then
        ⟨.draw, if 3 ≤ ph key then .repetition else .fifty, board, moves, movers, s1, s2⟩
      else
        let pick : Option M × B1 × B2 × Bool :=
          if R.turn board = Color.white then
            let r := gb1.get_move s1 board
            (r.1, r.2, s2, true)
          else
            let r := gb2.get_move s2 board
            (r.1, s1, r.2, false)
        match pick with
        | (none, s1', s2', _) =>
          ⟨classifyEnd R board, .nomove, board, moves, movers, s1', s2'⟩
        | (some mv, s1', s2', tag) =>
          let board' := R.push board mv
          let moves' := moves ++ [mv]
          let movers' := movers ++ [(R.turn board, tag)]
          let mc' := move_count + 1
          if 200 < mc' then ⟨.draw, .cap, board', moves', movers', s1', s2'⟩
          else play_game_loop R gb1 gb2 fuel board' s1' s2' ph moves' movers' mc'

/-- `SelfPlayTrainer.play_game(board, bot1, bot2, moves, game_num)`:
`move_count = 0`, `position_history = {}` (every key starts at 0), then the
loop; fuel 202 strictly exceeds the at most 201 iterations the 200-ply cap
permits. -/
def SelfPlayTrainer.play_game {B1 B2 : Type} (R : Rules Pos M) (gb1 : GameBot Pos M B1)
    (gb2 : GameBot Pos M B2) (board : Pos) (s1 : B1) (s2 : B2) (moves : List M)
    (_game_num : Nat) : GameRun Pos M B1 B2 :=
  play_game_loop R gb1 gb2 202 board s1 s2 (fun _ => 0) moves [] 0

/-- The `for game_num in range(...)` loop of `SelfPlayTrainer.play_match`:
every game starts from `chess.Board()` (`R.start`) with `bot1`/`bot2` in the
same fixed roles, and the bots' states (their mutated tables) carry over
from game to game. -/
def play_match_go {B1 B2 : Type} (R : Rules Pos M) (gb1 : GameBot Pos M B1)
    (gb2 : GameBot Pos M B2) :
    Nat → Nat → B1 → B2 → List (Nat × GameRun Pos M B1 B2)
  | 0, _, _, _ => []
  | n + 1, game_num, s1, s2 =>
    let run := SelfPlayTrainer.play_game R gb1 gb2 R.start s1 s2 [] game_num
    (game_num, run) :: play_match_go R gb1 gb2 n (game_num + 1) run.endState1 run.endState2

/-- `SelfPlayTrainer.play_match(bot1, bot2)`: `games_per_iteration` games,
numbered from 0. -/
def SelfPlayTrainer.play_match {B1 B2 : Type} (R : Rules Pos M) (gb1 : GameBot Pos M B1)
    (gb2 : GameBot Pos M B2) (games_per_iteration : Nat) (s1 : B1) (s2 : B2) :
    List (Nat × GameRun Pos M B1 B2) :=
  play_match_go R gb1 gb2 games_per_iteration 0 s1 s2

/-- Any fuel strictly above `200 - move_count` gives the same run: the
out-of-fuel branch of `play_game_loop` is unreachable from `play_game`'s
fuel of 202. -/
theorem play_game_loop_fuel {B1 B2 : Type} (R : Rules Pos M) (gb1 : GameBot Pos M B1)
    (gb2 : GameBot Pos M B2) :
    ∀ (f g : Nat) (board : Pos) (s1 : B1) (s2 : B2) (ph : String → Nat) (moves : List M)
      (movers : List (Color × Bool)) (mc : Nat),
      200 - mc < f → 200 - mc < g →
      play_game_loop R gb1 gb2 f board s1 s2 ph moves movers mc
        = play_game_loop R gb1 gb2 g board s1 s2 ph moves movers mc := by
  intro f
  induction f with
  | zero =>
    intro g board s1 s2 ph moves movers mc hf _
    exact (Nat.not_lt_zero _ hf).elim
  | succ f ihf =>
    intro g board s1 s2 ph moves movers mc hf hg
    cases g with
    | zero => exact (Nat.not_lt_zero _ hg).elim
    | succ g =>
      simp only [play_game_loop]
      by_cases hgo : R.is_game_over board
      · simp [hgo]
      · simp only [hgo, Bool.false_eq_true, if_false, if_true]
        by_cases hrep : 3 ≤ ph (R.board_fen board) + 1 ∨ 100 ≤ R.halfmove_clock board
        · have hrep2 : 2 ≤ ph (R.board_fen board) ∨ 100 ≤ R.halfmove_clock board := by omega
          simp [hrep2]
        · simp only [hrep, if_false]
          by_cases hturn : R.turn board = Color.white
          · simp only [hturn, if_true]
            cases hmv : (gb1.get_move s1 board).1 with
            | none => rfl
            | some mv =>
              by_cases hcap : 200 < mc + 1
              · simp [hcap]
              · simp only [hcap, if_false]
                exact ihf g _ _ _ _ _ _ _ (by omega) (by omega)
          · simp only [hturn, if_false]
            cases hmv : (gb2.get_move s2 board).1 with
            | none => rfl
            | some mv =>
              by_cases hcap : 200 < mc + 1
              · simp [hcap]
              · simp only [hcap, if_false]
                exact ihf g _ _ _ _ _ _ _ (by omega) (by omega)

theorem color_not_white {c : Color} (h : ¬ c = Color.white) : c = Color.black := by
  cases c
  · exact absurd rfl h
  · rfl

theorem color_not_black {c : Color} (h : ¬ c = Color.black) : c = Color.white := by
  cases c
  · rfl
  · exact absurd rfl h

/-- The facts about one finished game run that the play_game claims need:
draw exactly when the stop was not a checkmate; a bot1/bot2 result exactly
on checkmate with Black/White to move; a mate stop means a checkmated final
position reached within 200 plies and conversely; and every recorded move
was chosen by bot1 exactly when White was to move. -/
abbrev RunSpec {B1 B2 : Type} (R : Rules Pos M) (run : GameRun Pos M B1 B2) : Prop :=
  (run.result = GameResult.draw ↔ run.reason ≠ StopReason.mate)
  ∧ (run.result = GameResult.bot1
      ↔ (run.reason = StopReason.mate ∧ R.turn run.final = Color.black))
  ∧ (run.result = GameResult.bot2
      ↔ (run.reason = StopReason.mate ∧ R.turn run.final = Color.white))
  ∧ (run.reason = StopReason.mate →
      (R.is_checkmate run.final = true ∧ run.moves.length ≤ 200))
  ∧ ((R.is_checkmate run.final = true ∧ run.moves.length ≤ 200) →
      run.reason = StopReason.mate)
  ∧ (∀ e ∈ run.movers, e.2 = true ↔ e.1 = Color.white)

theorem runSpec_exitGameOver {B1 B2 : Type} (R : Rules Pos M) (board : Pos)
    (moves : List M) (movers : List (Color × Bool)) (s1 : B1) (s2 : B2)
    (hlen : moves.length ≤ 200)
    (hmob : ∀ e ∈ movers, e.2 = true ↔ e.1 = Color.white) :
    RunSpec R ⟨classifyEnd R board,
      if R.is_checkmate board then StopReason.mate else StopReason.natural,
      board, moves, movers, s1, s2⟩ := by
  dsimp only [RunSpec]
  by_cases hc : R.is_checkmate board
  · refine ⟨?_, ?_, ?_, fun _ => ⟨hc, hlen⟩, fun _ => by simp [hc], hmob⟩
    · by_cases ht : R.turn board = Color.black <;> simp [classifyEnd, hc, ht]
    · by_cases ht : R.turn board = Color.black <;> simp [classifyEnd, hc, ht]
    · by_cases ht : R.turn board = Color.black
      · simp [classifyEnd, hc, ht]
      · simp [classifyEnd, hc, ht, color_not_black ht]
  · refine ⟨?_, ?_, ?_, by simp [hc], ?_, hmob⟩
    · simp [classifyEnd, hc]
    · simp [classifyEnd, hc]
    · simp [classifyEnd, hc]
    · intro hh
      exact absurd hh.1 (by simp [hc])

theorem runSpec_exitDraw {B1 B2 : Type} (R : Rules Pos M) (board : Pos)
    (moves : List M) (movers : List (Color × Bool)) (s1 : B1) (s2 : B2)
    (reason : StopReason) (hr : reason ≠ StopReason.mate)
    (hnc : R.is_checkmate board = false ∨ 200 < moves.length)
    (hmob : ∀ e ∈ movers, e.2 = true ↔ e.1 = Color.white) :
    RunSpec R ⟨GameResult.draw, reason, board, moves, movers, s1, s2⟩ := by
  dsimp only [RunSpec]
  refine ⟨by simpa using hr, by simp [hr], by simp [hr], fun hh => absurd hh hr, ?_, hmob⟩
  intro hh
  rcases hnc with hnc | hnc
  · exact absurd hh.1 (by simp [hnc])
  · exact absurd hh.2 (by omega)

/-- Characterization of every `play_game` loop run (invariants: fuel +
move_count = 202, move_count ≤ 200, and the moves list has one entry per
counted ply), given the chess fact that a checkmate position is game over. -/
theorem play_game_loop_spec {B1 B2 : Type} (R : Rules Pos M) (gb1 : GameBot Pos M B1)
    (gb2 : GameBot Pos M B2)
    (hcm : ∀ p, R.is_checkmate p = true → R.is_game_over p = true) :
    ∀ (fuel : Nat) (board : Pos) (s1 : B1) (s2 : B2) (ph : String → Nat) (moves : List M)
      (movers : List (Color × Bool)) (mc : Nat),
      fuel + mc = 202 → mc ≤ 200 → moves.length = mc →
      (∀ e ∈ movers, e.2 = true ↔ e.1 = Color.white) →
      RunSpec R (play_game_loop R gb1 gb2 fuel board s1 s2 ph moves movers mc) := by
  intro fuel
  induction fuel with
  | zero =>
    intro board s1 s2 ph moves movers mc h202 h200 hlen hmob
    exact absurd h202 (by omega)
  | succ fuel ih =>
    intro board s1 s2 ph moves movers mc h202 h200 hlen hmob
    simp only [play_game_loop]
    by_cases hgo : R.is_game_over board
    · simp only [hgo, if_true]
      exact runSpec_exitGameOver R board moves movers s1 s2 (by omega) hmob
    · have hgof : R.is_game_over board = false := by simpa using hgo
      have hncm : R.is_checkmate board = false := by
        cases hcb : R.is_checkmate board
        · rfl
        · exact absurd (hcm board hcb) (by simp [hgof])
      simp only [hgo, Bool.false_eq_true, if_false, if_true]
      by_cases hrep : 3 ≤ ph (R.board_fen board) + 1 ∨ 100 ≤ R.halfmove_clock board
      · rw [if_pos hrep]
        have hr : (if 3 ≤ ph (R.board_fen board) + 1 then StopReason.repetition
            else StopReason.fifty) ≠ StopReason.mate := by
          split <;> simp
        exact runSpec_exitDraw R board moves movers s1 s2 _ hr (Or.inl hncm) hmob
      · simp only [hrep, if_false]
        by_cases hturn : R.turn board = Color.white
        · have hmob' : ∀ e ∈ movers ++ [(Color.white, true)],
              e.2 = true ↔ e.1 = Color.white := by
            intro e he
            rcases List.mem_append.mp he with he | he
            · exact hmob e he
            · simp only [List.mem_singleton] at he
              subst he
              simp
          simp only [hturn, if_true]
          cases hmv : (gb1.get_move s1 board).1 with
          | none =>
            have hclass : classifyEnd R board = GameResult.draw := by
              simp [classifyEnd, hncm]
            rw [hclass]
            exact runSpec_exitDraw R board moves movers _ _ StopReason.nomove (by simp)
              (Or.inl hncm) hmob
          | some mv =>
            by_cases hcap : 200 < mc + 1
            · simp only [hcap, if_true]
              refine runSpec_exitDraw R (R.push board mv) (moves ++ [mv]) _ _ _
                StopReason.cap (by simp) (Or.inr ?_) hmob'
              simp only [List.length_append, List.length_singleton, hlen]
              omega
            · simp only [hcap, if_false]
              exact ih (R.push board mv) _ _ _ (moves ++ [mv]) _ (mc + 1) (by omega)
                (by omega) (by simp [hlen]) hmob'
        · have hmob' : ∀ e ∈ movers ++ [(R.turn board, false)],
              e.2 = true ↔ e.1 = Color.white := by
            intro e he
            rcases List.mem_append.mp he with he | he
            · exact hmob e he
            · simp only [List.mem_singleton] at he
              subst he
              simp [hturn]
          simp only [hturn, if_false]
          cases hmv : (gb2.get_move s2 board).1 with
          | none =>
            have hclass : classifyEnd R board = GameResult.draw := by
              simp [classifyEnd, hncm]
            rw [hclass]
            exact runSpec_exitDraw R board moves movers _ _ StopReason.nomove (by simp)
              (Or.inl hncm) hmob
          | some mv =>
            by_cases hcap : 200 < mc + 1
            · simp only [hcap, if_true]
              refine runSpec_exitDraw R (R.push board mv) (moves ++ [mv]) _ _ _
                StopReason.cap (by simp) (Or.inr ?_) hmob'
              simp only [List.length_append, List.length_singleton, hlen]
              omega
            · simp only [hcap, if_false]
              exact ih (R.push board mv) _ _ _ (moves ++ [mv]) _ (mc + 1) (by omega)
                (by omega) (by simp [hlen]) hmob'

/-- C5 (amended): `play_game` returns a draw exactly when the run stopped by
the 3rd occurrence of a position key, a half-move clock of at least 100, the
200-ply cap, the side-to-move's bot returning no move, **or the rules engine
reporting the game over without checkmate** (stalemate and other natural
draws); each condition is signaled by the returned `'draw'` value — the
function is total and always returns one of the three result values, never
an error. -/
theorem c5_play_game_draw {B1 B2 : Type} (R : Rules Pos M) (gb1 : GameBot Pos M B1)
    (gb2 : GameBot Pos M B2)
    (hcm : ∀ p, R.is_checkmate p = true → R.is_game_over p = true)
    (board : Pos) (s1 : B1) (s2 : B2) (gn : Nat) :
    ((SelfPlayTrainer.play_game R gb1 gb2 board s1 s2 [] gn).result = GameResult.draw
      ↔ ((SelfPlayTrainer.play_game R gb1 gb2 board s1 s2 [] gn).reason = StopReason.repetition
        ∨ (SelfPlayTrainer.play_game R gb1 gb2 board s1 s2 [] gn).reason = StopReason.fifty
        ∨ (SelfPlayTrainer.play_game R gb1 gb2 board s1 s2 [] gn).reason = StopReason.cap
        ∨ (SelfPlayTrainer.play_game R gb1 gb2 board s1 s2 [] gn).reason = StopReason.nomove
        ∨ (SelfPlayTrainer.play_game R gb1 gb2 board s1 s2 [] gn).reason = StopReason.natural))
  ∧ ((SelfPlayTrainer.play_game R gb1 gb2 board s1 s2 [] gn).result = GameResult.bot1
      ∨ (SelfPlayTrainer.play_game R gb1 gb2 board s1 s2 [] gn).result = GameResult.bot2
      ∨ (SelfPlayTrainer.play_game R gb1 gb2 board s1 s2 [] gn).result = GameResult.draw) := by
  have h := play_game_loop_spec R gb1 gb2 hcm 202 board s1 s2 (fun _ => 0) [] [] 0 rfl
    (by omega) rfl (by simp)
  constructor
  · rw [show SelfPlayTrainer.play_game R gb1 gb2 board s1 s2 [] gn
        = play_game_loop R gb1 gb2 202 board s1 s2 (fun _ => 0) [] [] 0 from rfl]
    rw [h.1]
    cases hres : (play_game_loop R gb1 gb2 202 board s1 s2 (fun _ => 0) [] [] 0).reason <;>
      simp
  · cases hres : (SelfPlayTrainer.play_game R gb1 gb2 board s1 s2 [] gn).result <;> simp

/-- A two-position game that ends in an immediate natural draw: from the
start the single legal move leads to a stalemate-flagged game-over position
that is not checkmate. -/
def SRules : Rules (Fin 2) Unit :=
  { legal_moves := fun p => if p.val = 0 then [()] else []
    push := fun _ _ => 1
    is_game_over := fun p => decide (p.val = 1)
    is_checkmate := fun _ => false
    is_stalemate := fun p => decide (p.val = 1)
    is_insufficient_material := fun _ => false
    turn := fun p => if p.val = 0 then Color.white else Color.black
    board_fen := fun p => if p.val = 0 then "a" else "b"
    halfmove_clock := fun _ => 0
    piece_at := fun _ _ => none
    start := 0 }

/-- A bot (for the two-position instances) that plays the only move while
one exists and `None` afterwards. -/
def SBot : GameBot (Fin 2) Unit Unit :=
  ⟨fun _ p => (if p.val = 0 then some () else none, ())⟩

/-- C5 counterexample: a game reaching a stalemate position returns
`'draw'` although *none* of the four enumerated conditions holds — the stop
reason is the rules engine reporting a non-checkmate game over (first key
occurrence only, half-move clock 0, 1 ply played, the bot produced a move
every turn). -/
theorem c5_counterexample :
    (SelfPlayTrainer.play_game SRules SBot SBot SRules.start () () [] 0).result
        = GameResult.draw
  ∧ (SelfPlayTrainer.play_game SRules SBot SBot SRules.start () () [] 0).reason
        = StopReason.natural := by
  decide

/-- Witness for `c5_play_game_draw` at the concrete two-position stalemate
game. -/
theorem c5_witness :
    ((SelfPlayTrainer.play_game SRules SBot SBot SRules.start () () [] 0).result
        = GameResult.draw
      ↔ ((SelfPlayTrainer.play_game SRules SBot SBot SRules.start () () [] 0).reason
            = StopReason.repetition
        ∨ (SelfPlayTrainer.play_game SRules SBot SBot SRules.start () () [] 0).reason
            = StopReason.fifty
        ∨ (SelfPlayTrainer.play_game SRules SBot SBot SRules.start () () [] 0).reason
            = StopReason.cap
        ∨ (SelfPlayTrainer.play_game SRules SBot SBot SRules.start () () [] 0).reason
            = StopReason.nomove
        ∨ (SelfPlayTrainer.play_game SRules SBot SBot SRules.start () () [] 0).reason
            = StopReason.natural))
  ∧ ((SelfPlayTrainer.play_game SRules SBot SBot SRules.start () () [] 0).result
        = GameResult.bot1
      ∨ (SelfPlayTrainer.play_game SRules SBot SBot SRules.start () () [] 0).result
        = GameResult.bot2
      ∨ (SelfPlayTrainer.play_game SRules SBot SBot SRules.start () () [] 0).result
        = GameResult.draw) :=
  c5_play_game_draw SRules SBot SBot (by decide) SRules.start () () 0

theorem play_match_go_movers {B1 B2 : Type} (R : Rules Pos M) (gb1 : GameBot Pos M B1)
    (gb2 : GameBot Pos M B2)
    (hcm : ∀ p, R.is_checkmate p = true → R.is_game_over p = true) :
    ∀ (n gn : Nat) (s1 : B1) (s2 : B2),
      ∀ rec ∈ play_match_go R gb1 gb2 n gn s1 s2,
        ∀ e ∈ rec.2.movers, e.2 = true ↔ e.1 = Color.white := by
  intro n
  induction n with
  | zero =>
    intro gn s1 s2 rec hrec
    simp [play_match_go] at hrec
  | succ n ihn =>
    intro gn s1 s2 rec hrec
    rcases List.mem_cons.mp hrec with h | h
    · subst h
      exact (play_game_loop_spec R gb1 gb2 hcm 202 R.start s1 s2 (fun _ => 0) [] [] 0 rfl
        (by omega) rfl (by simp)).2.2.2.2.2
    · exact ihn (gn + 1) _ _ rec h

/-- C10 (amended): in every game of every match the incumbent (`bot1`)
chooses exactly the moves made with White to move and the challenger
(`bot2`) those with Black to move, in every game of the match (colors are
never swapped); and `'bot1'` is recorded exactly when the final position is
checkmate with Black to move **and the mate fell within the 200-ply cap**
(symmetrically for `'bot2'` with White to move) — a mate delivered on ply
201 is recorded as a draw by the cap. -/
theorem c10_fixed_colors {B1 B2 : Type} (R : Rules Pos M) (gb1 : GameBot Pos M B1)
    (gb2 : GameBot Pos M B2)
    (hcm : ∀ p, R.is_checkmate p = true → R.is_game_over p = true) :
    (∀ (n : Nat) (s1 : B1) (s2 : B2),
      ∀ rec ∈ SelfPlayTrainer.play_match R gb1 gb2 n s1 s2,
        ∀ e ∈ rec.2.movers, e.2 = true ↔ e.1 = Color.white)
  ∧ (∀ (board : Pos) (s1 : B1) (s2 : B2) (gn : Nat),
      ((SelfPlayTrainer.play_game R gb1 gb2 board s1 s2 [] gn).result = GameResult.bot1
        ↔ (R.is_checkmate (SelfPlayTrainer.play_game R gb1 gb2 board s1 s2 [] gn).final
              = true
          ∧ R.turn (SelfPlayTrainer.play_game R gb1 gb2 board s1 s2 [] gn).final
              = Color.black
          ∧ (SelfPlayTrainer.play_game R gb1 gb2 board s1 s2 [] gn).moves.length ≤ 200))
      ∧ ((SelfPlayTrainer.play_game R gb1 gb2 board s1 s2 [] gn).result = GameResult.bot2
        ↔ (R.is_checkmate (SelfPlayTrainer.play_game R gb1 gb2 board s1 s2 [] gn).final
              = true
          ∧ R.turn (SelfPlayTrainer.play_game R gb1 gb2 board s1 s2 [] gn).final
              = Color.white
          ∧ (SelfPlayTrainer.play_game R gb1 gb2 board s1 s2 [] gn).moves.length ≤ 200))) := by
  constructor
  · intro n s1 s2 rec hrec
    exact play_match_go_movers R gb1 gb2 hcm n 0 s1 s2 rec hrec
  · intro board s1 s2 gn
    have h := play_game_loop_spec R gb1 gb2 hcm 202 board s1 s2 (fun _ => 0) [] [] 0 rfl
      (by omega) rfl (by simp)
    obtain ⟨_, hb1, hb2, hmate, hmate', _⟩ := h
    constructor
    · constructor
      · intro hr
        obtain ⟨hm, ht⟩ := hb1.mp hr
        obtain ⟨hc, hl⟩ := hmate hm
        exact ⟨hc, ht, hl⟩
      · intro ⟨hc, ht, hl⟩
        exact hb1.mpr ⟨hmate' ⟨hc, hl⟩, ht⟩
    · constructor
      · intro hr
        obtain ⟨hm, ht⟩ := hb2.mp hr
        obtain ⟨hc, hl⟩ := hmate hm
        exact ⟨hc, ht, hl⟩
      · intro ⟨hc, ht, hl⟩
        exact hb2.mpr ⟨hmate' ⟨hc, hl⟩, ht⟩

/-- A forced line of 202 positions: position `i` (ply count `i`) has one
legal move to position `i + 1`; position 201 is checkmate with Black to
move (201 plies played, odd, so Black is the mover); all positions have
distinct plain keys and a zero half-move clock. -/
def LRules : Rules (Fin 202) Unit :=
  { legal_moves := fun p => if p.val < 201 then [()] else []
    push := fun p _ => if h : p.val < 201 then ⟨p.val + 1, by omega⟩ else p
    is_game_over := fun p => decide (p.val = 201)
    is_checkmate := fun p => decide (p.val = 201)
    is_stalemate := fun _ => false
    is_insufficient_material := fun _ => false
    turn := fun p => if p.val % 2 = 0 then Color.white else Color.black
    board_fen := fun p => String.mk (Nat.toDigits 10 p.val)
    halfmove_clock := fun _ => 0
    piece_at := fun _ _ => none
    start := 0 }

/-- A bot for `LRules` that always plays the single legal move. -/
def LBot : GameBot (Fin 202) Unit Unit :=
  ⟨fun _ p => (if p.val < 201 then some () else none, ())⟩

set_option maxRecDepth 20000 in
set_option maxHeartbeats 2000000 in
/-- C10 counterexample: in the forced 201-ply game the final position *is*
checkmate with Black to move, yet `play_game` records `'draw'`, not a
`'bot1'` win — the 200-ply cap fires right after the mating 201st move and
returns before the checkmate classification is reached. -/
theorem c10_counterexample :
    (SelfPlayTrainer.play_game LRules LBot LBot LRules.start () () [] 0).result
        = GameResult.draw
  ∧ LRules.is_checkmate
        (SelfPlayTrainer.play_game LRules LBot LBot LRules.start () () [] 0).final = true
  ∧ LRules.turn
        (SelfPlayTrainer.play_game LRules LBot LBot LRules.start () () [] 0).final
        = Color.black := by
  decide

/-- A two-position game where White's single move delivers immediate
checkmate (final position game over, checkmate, Black to move). -/
def MRules : Rules (Fin 2) Unit :=
  { legal_moves := fun p => if p.val = 0 then [()] else []
    push := fun _ _ => 1
    is_game_over := fun p => decide (p.val = 1)
    is_checkmate := fun p => decide (p.val = 1)
    is_stalemate := fun _ => false
    is_insufficient_material := fun _ => false
    turn := fun p => if p.val = 0 then Color.white else Color.black
    board_fen := fun p => if p.val = 0 then "a" else "b"
    halfmove_clock := fun _ => 0
    piece_at := fun _ _ => none
    start := 0 }

/-- Witness for `c10_fixed_colors` at the concrete one-move-mate game. -/
theorem c10_witness :
    ((SelfPlayTrainer.play_game MRules SBot SBot MRules.start () () [] 0).result
        = GameResult.bot1
      ↔ (MRules.is_checkmate
            (SelfPlayTrainer.play_game MRules SBot SBot MRules.start () () [] 0).final = true
        ∧ MRules.turn
            (SelfPlayTrainer.play_game MRules SBot SBot MRules.start () () [] 0).final
            = Color.black
        ∧ (SelfPlayTrainer.play_game MRules SBot SBot MRules.start () () [] 0).moves.length
            ≤ 200))
  ∧ ((SelfPlayTrainer.play_game MRules SBot SBot MRules.start () () [] 0).result
        = GameResult.bot2
      ↔ (MRules.is_checkmate
            (SelfPlayTrainer.play_game MRules SBot SBot MRules.start () () [] 0).final = true
        ∧ MRules.turn
            (SelfPlayTrainer.play_game MRules SBot SBot MRules.start () () [] 0).final
            = Color.white
        ∧ (SelfPlayTrainer.play_game MRules SBot SBot MRules.start () () [] 0).moves.length
            ≤ 200)) :=
  (c10_fixed_colors MRules SBot SBot (by decide)).2 MRules.start () () 0

/-- A finite (neither `-inf` nor `+inf`) score. -/
def Score.IsFin (s : Score) : Prop := s ≠ Score.ninf ∧ s ≠ Score.pinf

/-- Every value cached in the transposition table is finite. -/
def TTFin (tt : TT) : Prop := ∀ e ∈ tt, e.2.value.IsFin

theorem Score.leRefl (a : Score) : a.le a = true := by
  cases a <;> simp [Score.le]

theorem Score.leTotal (a b : Score) : a.le b = true ∨ b.le a = true := by
  cases a <;> cases b <;> simp [Score.le]
  exact le_total _ _

theorem Score.leTrans {a b c : Score} (h1 : a.le b = true) (h2 : b.le c = true) :
    a.le c = true := by
  cases a <;> cases b <;> cases c <;> simp [Score.le] at h1 h2 ⊢
  exact ge_trans h2 h1

theorem Score.leAsymm {a b : Score} (h1 : a.le b = true) (h2 : b.le a = true) :
    a = b := by
  cases a <;> cases b <;> simp [Score.le] at h1 h2 ⊢
  exact le_antisymm h1 h2

theorem Score.maxLeIff {a b c : Score} :
    (Score.max a b).le c = true ↔ (a.le c = true ∧ b.le c = true) := by
  unfold Score.max
  by_cases h : a.le b = true
  · simp only [h, if_true]
    constructor
    · intro hb
      exact ⟨Score.leTrans h hb, hb⟩
    · intro hh
      exact hh.2
  · have hba : b.le a = true := (Score.leTotal a b).resolve_left h
    simp only [h, if_false]
    constructor
    · intro ha
      exact ⟨ha, Score.leTrans hba ha⟩
    · intro hh
      exact hh.1

theorem Score.finIsFin (q : ℚ) : (Score.fin q).IsFin :=
  ⟨by simp, by simp⟩

theorem Score.maxFin {a b : Score} (ha : a = Score.ninf ∨ a.IsFin) (hb : b.IsFin) :
    (Score.max a b).IsFin := by
  unfold Score.max
  by_cases h : a.le b = true
  · simp [h, hb]
  · simp only [h, if_false]
    rcases ha with ha | ha
    · subst ha
      simp [Score.le] at h
    · exact ha

theorem Score.minFin {a b : Score} (ha : a = Score.pinf ∨ a.IsFin) (hb : b.IsFin) :
    (Score.min a b).IsFin := by
  unfold Score.min
  by_cases h : a.le b = true
  · simp only [h, if_true]
    rcases ha with ha | ha
    · subst ha
      cases b with
      | ninf => simp [Score.le] at h
      | fin q => simp [Score.le] at h
      | pinf => exact absurd rfl hb.2
    · exact ha
  · simp [h, hb]

theorem Score.negFin {s : Score} (h : s.IsFin) : (Score.neg s).IsFin := by
  cases s with
  | ninf => exact absurd rfl h.1
  | fin q => exact ⟨by simp [Score.neg], by simp [Score.neg]⟩
  | pinf => exact absurd rfl h.2

theorem ttStore_fin {tt : TT} {k : String} {e : TTEntry} (htt : TTFin tt)
    (he : e.value.IsFin) : TTFin (ttStore tt k e) := by
  intro p hp
  unfold ttStore at hp
  by_cases hs : (List.lookup k tt).isSome
  · simp only [hs, if_true, List.mem_map] at hp
    obtain ⟨q, hq, hqe⟩ := hp
    by_cases hqk : q.1 = k
    · simp only [hqk, if_true] at hqe
      subst hqe
      exact he
    · simp only [hqk, if_false] at hqe
      subst hqe
      exact htt q hq
  · simp only [hs, Bool.false_eq_true, if_false, List.mem_append, List.mem_singleton] at hp
    rcases hp with hp | hp
    · exact htt p hp
    · subst hp
      exact he

theorem maxLoop_fin (step : Pos → Score → Score → TT → Score × TT) (R : Rules Pos M)
    (b : Pos)
    (hstep : ∀ b2 a2 b3 t2, TTFin t2 →
      (step b2 a2 b3 t2).1.IsFin ∧ TTFin (step b2 a2 b3 t2).2) :
    ∀ (ms : List M) (value alpha beta : Score) (tt : TT), TTFin tt →
      (value.IsFin ∨ (value = Score.ninf ∧ ms ≠ [])) →
      (maxLoop step R b ms value alpha beta tt).1.IsFin
      ∧ TTFin (maxLoop step R b ms value alpha beta tt).2 := by
  intro ms
  induction ms with
  | nil =>
    intro value alpha beta tt htt hv
    rcases hv with hv | ⟨_, hne⟩
    · exact ⟨hv, htt⟩
    · exact absurd rfl hne
  | cons mv rest ih =>
    intro value alpha beta tt htt hv
    simp only [maxLoop]
    obtain ⟨h1, h2⟩ := hstep (R.push b mv) alpha beta tt htt
    have hval' : (Score.max value (step (R.push b mv) alpha beta tt).1).IsFin := by
      apply Score.maxFin _ h1
      rcases hv with hv | ⟨hv, _⟩
      · exact Or.inr hv
      · exact Or.inl hv
    by_cases hbr : Score.le beta
        (Score.max alpha (Score.max value (step (R.push b mv) alpha beta tt).1)) = true
    · simp only [hbr, if_true]
      exact ⟨hval', h2⟩
    · simp only [hbr, if_false]
      exact ih _ _ _ _ h2 (Or.inl hval')

theorem minLoop_fin (step : Pos → Score → Score → TT → Score × TT) (R : Rules Pos M)
    (b : Pos)
    (hstep : ∀ b2 a2 b3 t2, TTFin t2 →
      (step b2 a2 b3 t2).1.IsFin ∧ TTFin (step b2 a2 b3 t2).2) :
    ∀ (ms : List M) (value alpha beta : Score) (tt : TT), TTFin tt →
      (value.IsFin ∨ (value = Score.pinf ∧ ms ≠ [])) →
      (minLoop step R b ms value alpha beta tt).1.IsFin
      ∧ TTFin (minLoop step R b ms value alpha beta tt).2 := by
  intro ms
  induction ms with
  | nil =>
    intro value alpha beta tt htt hv
    rcases hv with hv | ⟨_, hne⟩
    · exact ⟨hv, htt⟩
    · exact absurd rfl hne
  | cons mv rest ih =>
    intro value alpha beta tt htt hv
    simp only [minLoop]
    obtain ⟨h1, h2⟩ := hstep (R.push b mv) alpha beta tt htt
    have hval' : (Score.min value (step (R.push b mv) alpha beta tt).1).IsFin := by
      apply Score.minFin _ h1
      rcases hv with hv | ⟨hv, _⟩
      · exact Or.inr hv
      · exact Or.inl hv
    by_cases hbr : Score.le
        (Score.min beta (Score.min value (step (R.push b mv) alpha beta tt).1)) alpha = true
    · simp only [hbr, if_true]
      exact ⟨hval', h2⟩
    · simp only [hbr, if_false]
      exact ih _ _ _ _ h2 (Or.inl hval')

/-- Under the chess invariant (no legal moves only at game-over positions)
and a table of finite values, `minimax` always computes a finite score and
keeps every table value finite. -/
theorem minimax_fin (bot : ChessBot M) (R : Rules Pos M)
    (hinv : ∀ p, R.legal_moves p = [] → R.is_game_over p = true) :
    ∀ (depth : Nat) (b : Pos) (alpha beta : Score) (mx : Bool) (tt : TT), TTFin tt →
      (bot.minimax R depth b alpha beta mx tt).1.IsFin
      ∧ TTFin (bot.minimax R depth b alpha beta mx tt).2 := by
  intro depth
  induction depth with
  | zero =>
    intro b alpha beta mx tt htt
    simp only [ChessBot.minimax]
    cases hl : List.lookup (bot.get_board_hash R b) tt with
    | some e =>
      have hm := htt (bot.get_board_hash R b, e) (lookup_mem hl)
      simp only [Nat.zero_le, if_true]
      exact ⟨hm, htt⟩
    | none =>
      exact ⟨Score.finIsFin _, ttStore_fin htt (Score.finIsFin _)⟩
  | succ d ih =>
    intro b alpha beta mx tt htt
    simp only [ChessBot.minimax]
    cases hl : List.lookup (bot.get_board_hash R b) tt with
    | some e =>
      by_cases hd : d + 1 ≤ e.depth
      · simp only [hd, if_true]
        exact ⟨htt (bot.get_board_hash R b, e) (lookup_mem hl), htt⟩
      · simp only [hd, if_false]
        by_cases hgo : R.is_game_over b
        · simp only [hgo, if_true]
          exact ⟨Score.finIsFin _, ttStore_fin htt (Score.finIsFin _)⟩
        · have hmoves : R.legal_moves b ≠ [] := by
            intro hemp
            exact absurd (hinv b hemp) hgo
          simp only [hgo, Bool.false_eq_true, if_false]
          cases mx with
          | true =>
            simp only [if_true]
            have hloop := maxLoop_fin (fun b2 a2 b3 t2 => bot.minimax R d b2 a2 b3 false t2)
              R b (fun b2 a2 b3 t2 ht => ih b2 a2 b3 false t2 ht)
              (R.legal_moves b) Score.ninf alpha beta tt htt (Or.inr ⟨rfl, hmoves⟩)
            exact ⟨hloop.1, ttStore_fin hloop.2 hloop.1⟩
          | false =>
            simp only [Bool.false_eq_true, if_false]
            have hloop := minLoop_fin (fun b2 a2 b3 t2 => bot.minimax R d b2 a2 b3 true t2)
              R b (fun b2 a2 b3 t2 ht => ih b2 a2 b3 true t2 ht)
              (R.legal_moves b) Score.pinf alpha beta tt htt (Or.inr ⟨rfl, hmoves⟩)
            exact ⟨hloop.1, ttStore_fin hloop.2 hloop.1⟩
    | none =>
      by_cases hgo : R.is_game_over b
      · simp only [hgo, if_true]
        exact ⟨Score.finIsFin _, ttStore_fin htt (Score.finIsFin _)⟩
      · have hmoves : R.legal_moves b ≠ [] := by
          intro hemp
          exact absurd (hinv b hemp) hgo
        simp only [hgo, Bool.false_eq_true, if_false]
        cases mx with
        | true =>
          simp only [if_true]
          have hloop := maxLoop_fin (fun b2 a2 b3 t2 => bot.minimax R d b2 a2 b3 false t2)
            R b (fun b2 a2 b3 t2 ht => ih b2 a2 b3 false t2 ht)
            (R.legal_moves b) Score.ninf alpha beta tt htt (Or.inr ⟨rfl, hmoves⟩)
          exact ⟨hloop.1, ttStore_fin hloop.2 hloop.1⟩
        | false =>
          simp only [Bool.false_eq_true, if_false]
          have hloop := minLoop_fin (fun b2 a2 b3 t2 => bot.minimax R d b2 a2 b3 true t2)
            R b (fun b2 a2 b3 t2 ht => ih b2 a2 b3 true t2 ht)
            (R.legal_moves b) Score.pinf alpha beta tt htt (Or.inr ⟨rfl, hmoves⟩)
          exact ⟨hloop.1, ttStore_fin hloop.2 hloop.1⟩

/-- The sequence of root scores exactly as the claim describes `get_move`'s
loop: each legal move is scored as
`-minimax(push(move), depth - 1, -beta, -alpha, False)` with `alpha` raised
to the running maximum and the transposition table threading through; the
final table is returned alongside. -/
def ChessBot.rootEval (bot : ChessBot M) (R : Rules Pos M) (b : Pos) :
    List M → Score → Score → TT → List Score × TT
  | [], _, _, tt => ([], tt)
  | mv :: rest, alpha, beta, tt =>
    let r := bot.minimax R (bot.depth - 1) (R.push b mv) beta.neg alpha.neg false tt
    let value := r.1.neg
    let rec' := bot.rootEval R b rest (Score.max alpha value) beta r.2
    (value :: rec'.1, rec'.2)

/-- The pure best-move accumulator of the root loop: strict improvement
updates both the move and the best value. -/
def pickFirst {M : Type} : List (M × Score) → Option M × Score → Option M × Score
  | [], acc => acc
  | (mv, v) :: rest, acc =>
    pickFirst rest (if Score.lt acc.2 v then (some mv, v) else acc)

/-- Maximum of a list of scores, `-inf` for the empty list. -/
def listMaxS : List Score → Score
  | [] => Score.ninf
  | v :: rest => Score.max v (listMaxS rest)

/-- The first move in order whose score attains the maximum score. -/
def firstAtMax {M : Type} (zs : List (M × Score)) : Option M :=
  (zs.find? (fun p => p.2 == listMaxS (zs.map Prod.snd))).map Prod.fst

/-- `rootLoop` is `pickFirst` over the claim-side score sequence, with the
same final transposition table. -/
theorem rootLoop_eq (bot : ChessBot M) (R : Rules Pos M) (b : Pos) :
    ∀ (ms : List M) (best : Option M) (bv alpha beta : Score) (tt : TT),
      bot.rootLoop R b ms best bv alpha beta tt
        = ((pickFirst (ms.zip (bot.rootEval R b ms alpha beta tt).1) (best, bv)).1,
           (bot.rootEval R b ms alpha beta tt).2) := by
  intro ms
  induction ms with
  | nil =>
    intro best bv alpha beta tt
    simp [ChessBot.rootLoop, ChessBot.rootEval, pickFirst]
  | cons mv rest ih =>
    intro best bv alpha beta tt
    simp only [ChessBot.rootLoop, ChessBot.rootEval, List.zip_cons_cons, pickFirst]
    by_cases hlt : Score.lt bv
        (Score.neg (bot.minimax R (bot.depth - 1) (R.push b mv) beta.neg alpha.neg false
          tt).1) = true
    · simp only [hlt, if_true]
      exact ih _ _ _ _ _
    · simp only [hlt, if_false]
      exact ih _ _ _ _ _

/-- All root scores are finite and the threaded table stays finite. -/
theorem rootEval_fin (bot : ChessBot M) (R : Rules Pos M) (b : Pos)
    (hinv : ∀ p, R.legal_moves p = [] → R.is_game_over p = true) :
    ∀ (ms : List M) (alpha beta : Score) (tt : TT), TTFin tt →
      (∀ v ∈ (bot.rootEval R b ms alpha beta tt).1, v.IsFin)
      ∧ TTFin (bot.rootEval R b ms alpha beta tt).2 := by
  intro ms
  induction ms with
  | nil =>
    intro alpha beta tt htt
    exact ⟨by simp [ChessBot.rootEval], htt⟩
  | cons mv rest ih =>
    intro alpha beta tt htt
    simp only [ChessBot.rootEval]
    obtain ⟨h1, h2⟩ := minimax_fin bot R hinv (bot.depth - 1) (R.push b mv) beta.neg
      alpha.neg false tt htt
    obtain ⟨h3, h4⟩ := ih (Score.max alpha
      (Score.neg (bot.minimax R (bot.depth - 1) (R.push b mv) beta.neg alpha.neg false
        tt).1)) beta _ h2
    refine ⟨?_, h4⟩
    intro v hv
    rcases List.mem_cons.mp hv with hv | hv
    · subst hv
      exact Score.negFin h1
    · exact h3 v hv

theorem Score.ltTrue {a b : Score} : Score.lt a b = true ↔ Score.le b a = false := by
  unfold Score.lt
  cases h : Score.le b a <;> simp

theorem firstAtMax_cons_skip {M : Type} (mv : M) (v : Score) (rest : List (M × Score))
    (hMall : listMaxS (v :: rest.map Prod.snd) = listMaxS (rest.map Prod.snd))
    (hne : (v == listMaxS (rest.map Prod.snd)) = false) :
    firstAtMax ((mv, v) :: rest) = firstAtMax rest := by
  unfold firstAtMax
  rw [show ((mv, v) :: rest).map Prod.snd = v :: rest.map Prod.snd from rfl, hMall]
  rw [List.find?]
  simp only [hne]

theorem firstAtMax_cons_head {M : Type} (mv : M) (v : Score) (rest : List (M × Score))
    (hMall : listMaxS (v :: rest.map Prod.snd) = v) :
    firstAtMax ((mv, v) :: rest) = some mv := by
  unfold firstAtMax
  rw [show ((mv, v) :: rest).map Prod.snd = v :: rest.map Prod.snd from rfl, hMall]
  rw [List.find?]
  simp

theorem boolNotTrue {b : Bool} (h : ¬ b = true) : b = false := by
  cases b
  · rfl
  · exact absurd rfl h

/-- The running strict-improvement fold of the root loop selects the first
entry attaining the list maximum, provided the maximum strictly exceeds the
starting best value (all scores finite). -/
theorem pickFirst_spec {M : Type} :
    ∀ (zs : List (M × Score)) (best : Option M) (bv : Score),
      (∀ p ∈ zs, p.2.IsFin) →
      (pickFirst zs (best, bv)).1
        = if Score.le (listMaxS (zs.map Prod.snd)) bv = true then best
          else firstAtMax zs := by
  intro zs
  induction zs with
  | nil =>
    intro best bv _
    simp [pickFirst, listMaxS, Score.le]
  | cons p rest ih =>
    intro best bv hfin
    obtain ⟨mv, v⟩ := p
    have hrest : ∀ q ∈ rest, q.2.IsFin := fun q hq => hfin q (List.mem_cons_of_mem _ hq)
    simp only [pickFirst, List.map_cons]
    by_cases hlt : Score.lt bv v = true
    · have hvbv : Score.le v bv = false := Score.ltTrue.mp hlt
      simp only [hlt, if_true]
      rw [ih (some mv) v hrest]
      have hcond : Score.le (Score.max v (listMaxS (rest.map Prod.snd))) bv = false := by
        cases hc : Score.le (Score.max v (listMaxS (rest.map Prod.snd))) bv
        · rfl
        · exact absurd (Score.maxLeIff.mp hc).1 (by simp [hvbv])
      by_cases hm : Score.le (listMaxS (rest.map Prod.snd)) v = true
      · simp only [hm, if_true, listMaxS, hcond, Bool.false_eq_true, if_false]
        have hMall : Score.max v (listMaxS (rest.map Prod.snd)) = v := by
          unfold Score.max
          by_cases h : Score.le v (listMaxS (rest.map Prod.snd)) = true
          · rw [if_pos h]
            exact (Score.leAsymm h hm).symm
          · rw [if_neg h]
        exact (firstAtMax_cons_head mv v rest hMall).symm
      · have hmF : Score.le (listMaxS (rest.map Prod.snd)) v = false := boolNotTrue hm
        have hvM : Score.le v (listMaxS (rest.map Prod.snd)) = true :=
          (Score.leTotal _ _).resolve_right hm
        have hMall : Score.max v (listMaxS (rest.map Prod.snd))
            = listMaxS (rest.map Prod.snd) := by
          unfold Score.max
          rw [if_pos hvM]
        have hne : (v == listMaxS (rest.map Prod.snd)) = false := by
          rw [beq_eq_false_iff_ne]
          intro he
          exact hm (he ▸ Score.leRefl v)
        simp only [hmF, listMaxS, hcond, Bool.false_eq_true, if_false]
        exact (firstAtMax_cons_skip mv v rest hMall hne).symm
    · have hltF : Score.lt bv v = false := boolNotTrue hlt
      have hvbv : Score.le v bv = true := by
        cases hc : Score.le v bv
        · exact absurd (Score.ltTrue.mpr hc) hlt
        · rfl
      simp only [hltF, Bool.false_eq_true, if_false]
      rw [ih best bv hrest]
      by_cases hm : Score.le (listMaxS (rest.map Prod.snd)) bv = true
      · have hcond : Score.le (Score.max v (listMaxS (rest.map Prod.snd))) bv = true :=
          Score.maxLeIff.mpr ⟨hvbv, hm⟩
        simp only [hm, listMaxS, hcond, if_true]
      · have hmF : Score.le (listMaxS (rest.map Prod.snd)) bv = false := boolNotTrue hm
        have hcond : Score.le (Score.max v (listMaxS (rest.map Prod.snd))) bv = false := by
          cases hc : Score.le (Score.max v (listMaxS (rest.map Prod.snd))) bv
          · rfl
          · exact absurd (Score.maxLeIff.mp hc).2 hm
        have hbvM : Score.le bv (listMaxS (rest.map Prod.snd)) = true := by
          rcases Score.leTotal (listMaxS (rest.map Prod.snd)) bv with h | h
          · exact absurd h hm
          · exact h
        have hvM : Score.le v (listMaxS (rest.map Prod.snd)) = true :=
          Score.leTrans hvbv hbvM
        have hMall : Score.max v (listMaxS (rest.map Prod.snd))
            = listMaxS (rest.map Prod.snd) := by
          unfold Score.max
          rw [if_pos hvM]
        have hne : (v == listMaxS (rest.map Prod.snd)) = false := by
          rw [beq_eq_false_iff_ne]
          intro he
          exact hm (he ▸ hvbv)
        simp only [hmF, listMaxS, hcond, Bool.false_eq_true, if_false]
        exact (firstAtMax_cons_skip mv v rest hMall hne).symm

theorem Score.leNinf {s : Score} : Score.le s Score.ninf = true ↔ s = Score.ninf := by
  cases s <;> simp [Score.le]

theorem rootEval_length (bot : ChessBot M) (R : Rules Pos M) (b : Pos) :
    ∀ (ms : List M) (alpha beta : Score) (tt : TT),
      (bot.rootEval R b ms alpha beta tt).1.length = ms.length := by
  intro ms
  induction ms with
  | nil => intro alpha beta tt; rfl
  | cons mv rest ih =>
    intro alpha beta tt
    simp only [ChessBot.rootEval, List.length_cons]
    rw [ih]

theorem listMax_mem_or : ∀ (l : List Score), listMaxS l = Score.ninf ∨ listMaxS l ∈ l := by
  intro l
  induction l with
  | nil => exact Or.inl rfl
  | cons v rest ih =>
    simp only [listMaxS]
    by_cases h : Score.le v (listMaxS rest) = true
    · have hmax : Score.max v (listMaxS rest) = listMaxS rest := by
        unfold Score.max
        rw [if_pos h]
      rw [hmax]
      rcases ih with ih | ih
      · exact Or.inl ih
      · exact Or.inr (List.mem_cons_of_mem _ ih)
    · have hmax : Score.max v (listMaxS rest) = v := by
        unfold Score.max
        rw [if_neg h]
      rw [hmax]
      exact Or.inr (List.mem_cons_self _ _)

theorem leListMax : ∀ (l : List Score) (v : Score), v ∈ l →
    Score.le v (listMaxS l) = true := by
  intro l
  induction l with
  | nil =>
    intro v hv
    simp at hv
  | cons w rest ih =>
    intro v hv
    simp only [listMaxS]
    rcases List.mem_cons.mp hv with hv | hv
    · subst hv
      unfold Score.max
      by_cases h : Score.le v (listMaxS rest) = true
      · rw [if_pos h]
        exact h
      · rw [if_neg h]
        exact Score.leRefl v
    · have hM := ih v hv
      unfold Score.max
      by_cases h : Score.le w (listMaxS rest) = true
      · rw [if_pos h]
        exact hM
      · rw [if_neg h]
        have hw : Score.le (listMaxS rest) w = true := (Score.leTotal _ _).resolve_left h
        exact Score.leTrans hM hw

theorem firstAtMax_some {M : Type} (zs : List (M × Score)) (h : zs ≠ [])
    (hfin : ∀ p ∈ zs, p.2.IsFin) :
    ∃ mv, firstAtMax zs = some mv := by
  have hmem : listMaxS (zs.map Prod.snd) ∈ zs.map Prod.snd := by
    rcases listMax_mem_or (zs.map Prod.snd) with hM | hM
    · obtain ⟨p0, rest0, hz⟩ := List.exists_cons_of_ne_nil h
      have h0 : Score.le p0.2 (listMaxS (zs.map Prod.snd)) = true := by
        apply leListMax
        rw [hz]
        simp
      rw [hM] at h0
      have : p0.2 = Score.ninf := Score.leNinf.mp h0
      exact absurd this (hfin p0 (by rw [hz]; exact List.mem_cons_self _ _)).1
    · exact hM
  obtain ⟨p, hp, hpv⟩ := List.mem_map.mp hmem
  have hsome : (zs.find? (fun p => p.2 == listMaxS (zs.map Prod.snd))).isSome := by
    rw [List.find?_isSome]
    refine ⟨p, hp, ?_⟩
    rw [hpv]
    exact beq_self_eq_true _
  obtain ⟨q, hq⟩ := Option.isSome_iff_exists.mp hsome
  refine ⟨q.1, ?_⟩
  unfold firstAtMax
  rw [hq]
  rfl

/-- C7: when the legal-move list is non-empty and the opening book yields no
legal move, `get_move` scores every root move, in the engine's enumeration
order and with no beta cutoff at the root, as
`-minimax(push(move), depth - 1, -beta, -alpha, False)` around a paired
make/unmake with `alpha` raised to the running maximum (`rootEval`), and
returns the first move in that order attaining the maximum score (together
with the threaded transposition table); it returns `None` exactly when the
legal-move list is empty.  Hypotheses: the chess invariant that only
game-over positions have no legal moves, a table with finite values, and
the book yielding no legal move. -/
theorem c7_get_move [DecidableEq M] (R : Rules Pos M) (bot : ChessBot M) (board : Pos)
    (r : ℚ) (tt : TT)
    (hinv : ∀ p, R.legal_moves p = [] → R.is_game_over p = true)
    (htt : TTFin tt)
    (hbook : ∀ bm, bot.get_book_move R board r = some bm → bm ∉ R.legal_moves board) :
    ((bot.get_move R board r tt).1 = none ↔ R.legal_moves board = [])
  ∧ (R.legal_moves board ≠ [] →
      bot.get_move R board r tt
        = (firstAtMax ((R.legal_moves board).zip
              (bot.rootEval R board (R.legal_moves board) Score.ninf Score.pinf tt).1),
           (bot.rootEval R board (R.legal_moves board) Score.ninf Score.pinf tt).2)) := by
  by_cases hemp : R.legal_moves board = []
  · constructor
    · simp [ChessBot.get_move, hemp]
    · intro hne
      exact absurd hemp hne
  · obtain ⟨m0, ms0, hl⟩ := List.exists_cons_of_ne_nil hemp
    have hfinzip : ∀ p ∈ (R.legal_moves board).zip
        (bot.rootEval R board (R.legal_moves board) Score.ninf Score.pinf tt).1,
        p.2.IsFin := by
      intro p hp
      exact (rootEval_fin bot R board hinv (R.legal_moves board) Score.ninf Score.pinf tt
        htt).1 p.2 (List.of_mem_zip hp).2
    have hzipne : (R.legal_moves board).zip
        (bot.rootEval R board (R.legal_moves board) Score.ninf Score.pinf tt).1 ≠ [] := by
      have hlen : ((R.legal_moves board).zip
          (bot.rootEval R board (R.legal_moves board) Score.ninf Score.pinf tt).1).length
          = (R.legal_moves board).length := by
        rw [List.length_zip, rootEval_length]
        omega
      intro hznil
      rw [hznil] at hlen
      rw [hl] at hlen
      simp at hlen
    have hsearch :
        bot.rootLoop R board (R.legal_moves board) none Score.ninf Score.ninf Score.pinf tt
          = (firstAtMax ((R.legal_moves board).zip
                (bot.rootEval R board (R.legal_moves board) Score.ninf Score.pinf tt).1),
             (bot.rootEval R board (R.legal_moves board) Score.ninf Score.pinf tt).2) := by
      rw [rootLoop_eq]
      refine Prod.ext ?_ rfl
      rw [pickFirst_spec _ none Score.ninf hfinzip]
      have hcond : Score.le (listMaxS
          (((R.legal_moves board).zip
            (bot.rootEval R board (R.legal_moves board) Score.ninf Score.pinf tt).1).map
              Prod.snd)) Score.ninf = false := by
        cases hc : Score.le (listMaxS
            (((R.legal_moves board).zip
              (bot.rootEval R board (R.legal_moves board) Score.ninf Score.pinf tt).1).map
                Prod.snd)) Score.ninf
        · rfl
        · exfalso
          have hM := Score.leNinf.mp hc
          rcases listMax_mem_or (((R.legal_moves board).zip
              (bot.rootEval R board (R.legal_moves board) Score.ninf Score.pinf tt).1).map
                Prod.snd) with hMm | hMm
          · obtain ⟨p0, rest0, hz⟩ := List.exists_cons_of_ne_nil hzipne
            have hp0 : p0.2 ∈ (((R.legal_moves board).zip
                (bot.rootEval R board (R.legal_moves board) Score.ninf Score.pinf
                  tt).1).map Prod.snd) :=
              List.mem_map_of_mem _ (by rw [hz]; exact List.mem_cons_self _ _)
            have h0 := leListMax _ p0.2 hp0
            rw [hMm] at h0
            exact (hfinzip p0 (by rw [hz]; exact List.mem_cons_self _ _)).1
              (Score.leNinf.mp h0)
          · obtain ⟨p, hp, hpv⟩ := List.mem_map.mp hMm
            exact (hfinzip p hp).1 (hpv.trans hM)
      rw [hcond]
      simp
    have hOut : bot.get_move R board r tt
        = (firstAtMax ((R.legal_moves board).zip
              (bot.rootEval R board (R.legal_moves board) Score.ninf Score.pinf tt).1),
           (bot.rootEval R board (R.legal_moves board) Score.ninf Score.pinf tt).2) := by
      simp only [ChessBot.get_move]
      have hE : (R.legal_moves board).isEmpty = false := by
        rw [hl]
        rfl
      rw [hE]
      simp only [Bool.false_eq_true, if_false]
      cases hbm : bot.get_book_move R board r with
      | none => exact hsearch
      | some bm =>
        show (if bm ∈ R.legal_moves board then (some bm, tt)
          else bot.rootLoop R board (R.legal_moves board) none Score.ninf Score.ninf
            Score.pinf tt) = _
        rw [if_neg (hbook bm hbm)]
        exact hsearch
    constructor
    · rw [hOut]
      obtain ⟨mv, hmv⟩ := firstAtMax_some _ hzipne hfinzip
      simp [hmv, hemp]
    · intro _
      exact hOut

/-- A three-position game for witnessing the root search: the root has two
legal moves (`false` to an empty board, `true` to the `exPieces` placement),
both leading to terminal positions; the bot searches at depth 1. -/
def TRules : Rules (Fin 3) Bool :=
  { legal_moves := fun p => if p.val = 0 then [false, true] else []
    push := fun p mv => if p.val = 0 then (if mv then 2 else 1) else p
    is_game_over := fun p => decide (p.val ≠ 0)
    is_checkmate := fun _ => false
    is_stalemate := fun _ => false
    is_insufficient_material := fun _ => false
    turn := fun _ => Color.white
    board_fen := fun p => if p.val = 0 then "r" else if p.val = 1 then "x" else "y"
    halfmove_clock := fun _ => 0
    piece_at := fun p s => if p.val = 2 then exPieces s else none
    start := 0 }

/-- Witness for `c7_get_move` at the concrete three-position game with an
empty opening book and an empty transposition table. -/
theorem c7_witness :
    (((newChessBot Bool 1).get_move TRules TRules.start 0 []).1 = none
      ↔ TRules.legal_moves TRules.start = [])
  ∧ (TRules.legal_moves TRules.start ≠ [] →
      (newChessBot Bool 1).get_move TRules TRules.start 0 []
        = (firstAtMax ((TRules.legal_moves TRules.start).zip
              ((newChessBot Bool 1).rootEval TRules TRules.start
                (TRules.legal_moves TRules.start) Score.ninf Score.pinf []).1),
           ((newChessBot Bool 1).rootEval TRules TRules.start
              (TRules.legal_moves TRules.start) Score.ninf Score.pinf []).2)) :=
  c7_get_move TRules (newChessBot Bool 1) TRules.start 0 []
    (by decide)
    (fun e he => absurd he (List.not_mem_nil e))
    (by intro bm h; simp [ChessBot.get_book_move, newChessBot] at h)
